import Mathlib

/-!
Verification of the traffic-path repository against its specification.

The development shallowly embeds three components of the repository:
  * the shortest-path solver (`modules/graph-api/src/backend/services/shortest_path.py`),
  * the traffic generator (`modules/traffic-api/src/backend/services/traffic_generator.py`),
  * the traveller workflow (`modules/traveller-api/src/backend/workflows/traveller.py`).

Python floats are modelled as rationals (the claims are about exact arithmetic),
Python dict-backed records as structures, `float("inf")` distances as `WithTop`,
and randomness / wall-clock time as explicitly passed oracle values, following the
specification's requirement that randomness be injectable.
-/


namespace GraphApi

/-- `Vertex` from `models/graph.py`: id and human-readable name. -/
structure Vertex where
  id : String
  name : String
deriving DecidableEq

/-- `Edge` from `models/graph.py`: a weighted directed edge.  The pydantic model
declares `weight` with `gt=0`; that validation is carried as a hypothesis
(`PosWeights`) in the theorems below. -/
structure Edge where
  from_vertex : String
  to_vertex : String
  weight : ℚ
deriving DecidableEq

/-- `Graph` from `models/graph.py`. -/
structure Graph where
  vertices : List Vertex
  edges : List Edge
deriving DecidableEq

/-- `ShortestPathResponse` from `models/graph.py`.  `total_distance` is a float in
the source and can be `float("inf")`, hence `WithTop ℚ` here. -/
structure ShortestPathResponse where
  path : List String
  vertices : List Vertex
  total_distance : WithTop ℚ
  success : Bool
  message : String
deriving DecidableEq

/-- The ids of the graph vertices, i.e. the key set of the `vertex_map` dict built
at the top of `find_shortest_path`. -/
def vertexIds (g : Graph) : List String :=
  g.vertices.map (fun v => v.id)

/-- Lookup in `vertex_map = {v.id: v for v in graph.vertices}`.  A Python dict
comprehension keeps the last entry for a duplicated key, hence the reverse scan.
The default is never reached when the looked-up id names a graph vertex. -/
def lookupVertex (g : Graph) (i : String) : Vertex :=
  (g.vertices.reverse.find? (fun v => v.id == i)).getD ⟨i, ""⟩

/-- The adjacency list of `v`: `adjacency[v]` after the build loop, i.e. the
`(to_vertex, weight)` pairs of the edges leaving `v`, in edge order. -/
def adjacency (g : Graph) (v : String) : List (String × ℚ) :=
  (g.edges.filter (fun e => e.from_vertex == v)).map (fun e => (e.to_vertex, e.weight))

/-- Order in which Python's `heapq` serves `(distance, vertex_id)` tuples:
lexicographic, distance first. -/
def pqLe (a b : ℚ × String) : Prop :=
  a.1 < b.1 ∨ (a.1 = b.1 ∧ a.2 ≤ b.2)

instance : DecidableRel pqLe := fun a b => by
  unfold pqLe; infer_instance

/-- The priority queue is modelled as a list kept sorted in `heapq` pop order;
`pqInsert` is `heapq.heappush` (insertion keeping the list sorted). -/
def pqInsert (x : ℚ × String) : List (ℚ × String) → List (ℚ × String)
  | [] => [x]
  | y :: ys => if pqLe x y then x :: y :: ys else y :: pqInsert x ys

/-- One relaxation from `src` (current distance `d`) along the pair `nb =
(neighbor, weight)`: the body of the `for neighbor, weight in adjacency[...]`
loop of `find_shortest_path`. -/
def relaxOne (src : String) (d : ℚ)
    (acc : (String → WithTop ℚ) × (String → Option String) × List (ℚ × String))
    (nb : String × ℚ) :
    (String → WithTop ℚ) × (String → Option String) × List (ℚ × String) :=
  if ((d + nb.2 : ℚ) : WithTop ℚ) < acc.1 nb.1 then
    (Function.update acc.1 nb.1 ((d + nb.2 : ℚ) : WithTop ℚ),
     Function.update acc.2.1 nb.1 (some src),
     pqInsert (d + nb.2, nb.1) acc.2.2)
  else acc

/-- The whole neighbor loop for the popped vertex `v` at distance `d`. -/
def relaxAll (dist : String → WithTop ℚ) (prev : String → Option String)
    (pq : List (ℚ × String)) (d : ℚ) (v : String) (nbs : List (String × ℚ)) :
    (String → WithTop ℚ) × (String → Option String) × List (ℚ × String) :=
  nbs.foldl (relaxOne v d) (dist, prev, pq)

/-- The `while pq:` loop of `find_shortest_path`.  Fuel makes the recursion
structural; `dijkstra_fuel` below is proven sufficient, so the `none` case is
unreachable in `find_shortest_path`.  Branches follow the source order: pop,
skip if visited, mark visited, break on the target, skip stale entries,
otherwise relax all outgoing edges. -/
def dijkstraLoop (g : Graph) (endId : String) :
    ℕ → (String → WithTop ℚ) → (String → Option String) →
    List (ℚ × String) → List String →
    Option ((String → WithTop ℚ) × (String → Option String))
  | _, dist, prev, [], _ => some (dist, prev)
  | 0, _, _, _ :: _, _ => none
  | fuel + 1, dist, prev, (d, v) :: rest, visited =>
    if v ∈ visited then
      dijkstraLoop g endId fuel dist prev rest visited
    else if v = endId then some (dist, prev)
    else if dist v < (d : WithTop ℚ) then
      dijkstraLoop g endId fuel dist prev rest (v :: visited)
    else
      dijkstraLoop g endId fuel
        (relaxAll dist prev rest d v (adjacency g v)).1
        (relaxAll dist prev rest d v (adjacency g v)).2.1
        (relaxAll dist prev rest d v (adjacency g v)).2.2
        (v :: visited)

/-- Fuel for the main loop; shown sufficient in `dijkstraLoop_runs`. -/
def dijkstraFuel (g : Graph) : ℕ :=
  (g.edges.length + 2) * (g.edges.length + 2)

/-- The `while current is not None:` path-reconstruction loop, producing the
path from the target back to the source.  Fuel is proven sufficient for the
predecessor maps produced by the main loop on positive-weight graphs. -/
def buildPath : ℕ → (String → Option String) → String → List String
  | 0, _, _ => []
  | fuel + 1, prev, cur =>
    cur :: (match prev cur with
            | none => []
            | some u => buildPath fuel prev u)

/-- Printing of a possibly-infinite distance for the success message. -/
def distToString (d : WithTop ℚ) : String :=
  if h : d = ⊤ then "inf" else toString (d.untop h)

/-- `ShortestPathService.find_shortest_path` from
`modules/graph-api/src/backend/services/shortest_path.py`.
The quotes around interpolated ids in the source messages are dropped, and the
`none` fuel fallback returns the no-path response; `dijkstraLoop_runs` shows the
fallback is never taken. -/
def find_shortest_path (g : Graph) (start_id end_id : String) : ShortestPathResponse :=
  if start_id ∉ vertexIds g then
    ⟨[], [], ⊤, false, "Start vertex " ++ start_id ++ " not found in graph"⟩
  else if end_id ∉ vertexIds g then
    ⟨[], [], ⊤, false, "End vertex " ++ end_id ++ " not found in graph"⟩
  else
    match dijkstraLoop g end_id (dijkstraFuel g)
        (fun v => if v = start_id then ((0 : ℚ) : WithTop ℚ) else ⊤)
        (fun _ => none) [(0, start_id)] [] with
    | none =>
      ⟨[], [], ⊤, false, "No path found between " ++ start_id ++ " and " ++ end_id⟩
    | some (dist, prev) =>
      if dist end_id = ⊤ then
        ⟨[], [], ⊤, false, "No path found between " ++ start_id ++ " and " ++ end_id⟩
      else
        let path := (buildPath (g.edges.length + 2) prev end_id).reverse
        ⟨path, path.map (lookupVertex g), dist end_id, true,
         "Found shortest path with distance " ++ distToString (dist end_id)⟩

/-- `Reach g s v c`: the graph has a directed path from `s` to `v` of total edge
weight `c`.  This is the space of "all paths" the specification's minimality
statement quantifies over. -/
inductive Reach (g : Graph) (s : String) : String → ℚ → Prop
  | refl : Reach g s s 0
  | tail {u : String} {c : ℚ} (e : Edge) :
      Reach g s u c → e ∈ g.edges → e.from_vertex = u → Reach g s e.to_vertex (c + e.weight)

/-- All edge weights are strictly positive (the pydantic `gt=0` validation). -/
def PosWeights (g : Graph) : Prop :=
  ∀ e ∈ g.edges, 0 < e.weight

/-- Edge endpoints name existing vertices (the data-model requirement; a graph
violating it makes the Python code raise a `KeyError`). -/
def Closed (g : Graph) : Prop :=
  ∀ e ∈ g.edges, e.from_vertex ∈ vertexIds g ∧ e.to_vertex ∈ vertexIds g

/-- The universe of vertex ids the search can ever reach or enqueue: the start
vertex and the heads of all edges. -/
def universeL (g : Graph) (s : String) : List String :=
  s :: g.edges.map (fun e => e.to_vertex)

/-- The first component of pairs is monotone along a pq kept in pop order. -/
def FstLe (a b : ℚ × String) : Prop := a.1 ≤ b.1

/-- Invariant of the `while pq:` loop, for a run started at `start` searching
for `endId`. -/
structure Inv (g : Graph) (start endId : String)
    (dist : String → WithTop ℚ) (prev : String → Option String)
    (pq : List (ℚ × String)) (visited : List String) : Prop where
  sound : ∀ v (c : ℚ), dist v = (c : WithTop ℚ) → Reach g start v c
  visMin : ∀ v ∈ visited, ∀ c : ℚ, Reach g start v c → dist v ≤ (c : WithTop ℚ)
  cover : ∀ v, v ∉ visited → ∀ c : ℚ, dist v = (c : WithTop ℚ) → (c, v) ∈ pq
  pqBound : ∀ p ∈ pq, dist p.2 ≤ (p.1 : WithTop ℚ)
  relaxed : ∀ u ∈ visited, u ≠ endId → ∀ e ∈ g.edges, e.from_vertex = u →
      dist e.to_vertex ≤ dist u + (e.weight : WithTop ℚ)
  sorted : pq.Pairwise FstLe
  prevInv : ∀ v u, prev v = some u → ∃ e ∈ g.edges, e.from_vertex = u ∧ e.to_vertex = v ∧
      dist u + (e.weight : WithTop ℚ) ≤ dist v ∧ dist v ≠ ⊤
  startDist : dist start = ((0 : ℚ) : WithTop ℚ)
  startPrev : prev start = none
  hasPrev : ∀ v, v ≠ start → dist v ≠ ⊤ → prev v ≠ none
  endNotVis : endId ∉ visited
  distUniv : ∀ v, dist v ≠ ⊤ → v ∈ universeL g start

/-- State invariant while folding `relaxOne` over the neighbor list of the
popped vertex `v` (popped at distance `d`), relative to the state
`dist0, prev0` right after the pop. -/
structure Mid (g : Graph) (v : String) (d : ℚ) (visited : List String)
    (dist0 : String → WithTop ℚ) (prev0 : String → Option String)
    (dist : String → WithTop ℚ) (prev : String → Option String)
    (pq : List (ℚ × String)) : Prop where
  mono : ∀ x, dist x ≤ dist0 x
  updOrKeep : ∀ x, (dist x = dist0 x ∧ prev x = prev0 x) ∨
      (∃ e ∈ g.edges, e.from_vertex = v ∧ e.to_vertex = x ∧
        dist x = ((d + e.weight : ℚ) : WithTop ℚ) ∧ prev x = some v ∧ dist x < dist0 x)
  cover : ∀ x, x ∉ v :: visited → ∀ c : ℚ, dist x = (c : WithTop ℚ) → (c, x) ∈ pq
  pqBound : ∀ p ∈ pq, dist p.2 ≤ (p.1 : WithTop ℚ)
  sorted : pq.Pairwise FstLe
  atV : dist v = (d : WithTop ℚ)

/-- What survives of the invariant when the loop returns. -/
structure Post (g : Graph) (start endId : String)
    (dist : String → WithTop ℚ) (prev : String → Option String) : Prop where
  sound : ∀ v (c : ℚ), dist v = (c : WithTop ℚ) → Reach g start v c
  prevInv : ∀ v u, prev v = some u → ∃ e ∈ g.edges, e.from_vertex = u ∧ e.to_vertex = v ∧
      dist u + (e.weight : WithTop ℚ) ≤ dist v ∧ dist v ≠ ⊤
  startDist : dist start = ((0 : ℚ) : WithTop ℚ)
  startPrev : prev start = none
  hasPrev : ∀ v, v ≠ start → dist v ≠ ⊤ → prev v ≠ none
  distUniv : ∀ v, dist v ≠ ⊤ → v ∈ universeL g start
  minEnd : ∀ c : ℚ, Reach g start endId c → dist endId ≤ (c : WithTop ℚ)

/-- Termination measure of the loop: unvisited universe vertices weighted by
the maximal fan-out, plus the queue length. -/
def phi (g : Graph) (start : String) (pq : List (ℚ × String)) (visited : List String) : ℕ :=
  ((universeL g start).toFinset.filter (fun x => x ∉ visited)).card * (g.edges.length + 1)
    + pq.length

/-- The example graph of the specification: vertices A-F with edges
A→B(1), B→C(2), A→D(4), B→E(3), C→F(1), D→E(1), E→F(2). -/
def exampleGraph : Graph :=
  ⟨[⟨"A", "A"⟩, ⟨"B", "B"⟩, ⟨"C", "C"⟩, ⟨"D", "D"⟩, ⟨"E", "E"⟩, ⟨"F", "F"⟩],
   [⟨"A", "B", 1⟩, ⟨"B", "C", 2⟩, ⟨"A", "D", 4⟩, ⟨"B", "E", 3⟩,
    ⟨"C", "F", 1⟩, ⟨"D", "E", 1⟩, ⟨"E", "F", 2⟩]⟩

end GraphApi

namespace TrafficApi

/-!
Embedding of `modules/traffic-api/src/backend/services/traffic_generator.py`.

Randomness and wall-clock reads are passed in as oracle values (the spec
requires injectable randomness).  Python's `random.random()` values, times and
`randint` results become explicit parameters.  Two modelling notes:
  * the `distance` field of edges is the rounded square root of a rational and
    is omitted (no claim concerns it); neighbor ranking compares squared
    distances, which orders exactly as the source's `math.sqrt` distances;
  * the `edge_set` of canonical `"i-j"` strings is kept as canonical `(i, j)`
    pairs; `'-'.join(map(str, sorted([i, j])))` is injective on those pairs.
-/

/-- A vertex dict of the generator. -/
structure TVertex where
  id : String
  name : String
  x : ℚ
  y : ℚ
deriving DecidableEq

/-- An edge dict of the generator (`distance` omitted, see module note). -/
structure TEdge where
  id : String
  src : String
  dst : String
  weight : ℚ
  speed : ℤ
  vehicleCount : ℤ
  isIncident : Bool
  incidentSeverity : ℚ
  bidirectional : Bool
deriving DecidableEq

/-- An incident dict (`from`/`to` of the source are `src`/`dst` here since
`from` is reserved). -/
structure TIncident where
  id : String
  edgeId : String
  src : String
  dst : String
  severity : ℚ
  startTime : ℤ
  endTime : ℤ
  type : String
  description : String
deriving DecidableEq

/-- The `self.config` dict. -/
structure TConfig where
  node_count : ℕ
  update_interval : ℚ
  base_traffic_level : ℚ
  traffic_variability : ℚ
  incident_probability : ℚ
  road_density : ℚ
deriving DecidableEq

/-- The mutable state of a `TrafficGenerator`. -/
structure GenState where
  config : TConfig
  vertices : List TVertex
  edges : List TEdge
  incidents : List TIncident
  update_count : ℕ
deriving DecidableEq

/-- `max(0.0, min(1.0, x))`. -/
def clamp01 (x : ℚ) : ℚ := max 0 (min 1 x)

/-- Python's `round`: round half to even. -/
def pyRound (q : ℚ) : ℤ :=
  if q - ⌊q⌋ < 1/2 then ⌊q⌋
  else if 1/2 < q - ⌊q⌋ then ⌊q⌋ + 1
  else if ⌊q⌋ % 2 = 0 then ⌊q⌋ else ⌊q⌋ + 1

/-- `_generate_random_traffic`; `r` is the `random.random()` draw. -/
def generate_random_traffic (cfg : TConfig) (r : ℚ) : ℚ :=
  clamp01 (cfg.base_traffic_level + (r - 1/2) * cfg.traffic_variability * 4)

/-- `_calculate_speed`. -/
def calculate_speed (traffic_level : ℚ) : ℤ :=
  pyRound (60 - traffic_level * 55)

/-- Map over a list together with element positions, starting at position `k`. -/
def mapIdxFrom (f : ℕ → α → α) : ℕ → List α → List α
  | _, [] => []
  | i, a :: t => f i a :: mapIdxFrom f (i + 1) t

/-- Map over a list together with element positions. -/
def mapWithIdx (f : ℕ → α → α) (l : List α) : List α := mapIdxFrom f 0 l

/-- Position and value of the first edge with a given id
(`next((e for e in self.edges if e['id'] == edge_id), None)`). -/
def findIdxEdge (edge_id : String) : List TEdge → Option (ℕ × TEdge)
  | [] => none
  | e :: t =>
    if e.id = edge_id then some (0, e)
    else (findIdxEdge edge_id t).map (fun p => (p.1 + 1, p.2))

/-- The adjacency test of `_get_average_neighbor_traffic` and
`_apply_incident_effect`: shares an endpoint with the target edge. -/
def adjacentTo (target e : TEdge) : Prop :=
  e.src = target.src ∨ e.src = target.dst ∨ e.dst = target.src ∨ e.dst = target.dst

instance : ∀ target e, Decidable (adjacentTo target e) := fun t e => by
  unfold adjacentTo; infer_instance

/-- The `connected_edges` list comprehension. -/
def connected_edges (edges : List TEdge) (target : TEdge) : List TEdge :=
  edges.filter (fun e => decide (e.id ≠ target.id ∧ adjacentTo target e))

/-- `_get_average_neighbor_traffic`. -/
def get_average_neighbor_traffic (cfg : TConfig) (edges : List TEdge) (target : TEdge) : ℚ :=
  if (connected_edges edges target).length = 0 then cfg.base_traffic_level
  else ((connected_edges edges target).map TEdge.weight).sum
    / (connected_edges edges target).length

/-- The severity tier of `_get_incident_description`, already capitalized. -/
def severity_cap (severity : ℚ) : String :=
  if 7/10 < severity then "Severe" else if 2/5 < severity then "Moderate" else "Minor"

/-- `_get_incident_description`. -/
def get_incident_description (incident_type : String) (severity : ℚ) : String :=
  if incident_type = "accident" then severity_cap severity ++ " vehicle accident causing delays"
  else if incident_type = "construction" then severity_cap severity ++ " road construction work"
  else if incident_type = "roadblock" then severity_cap severity ++ " road closure or blockage"
  else if incident_type = "weather" then severity_cap severity ++ " weather-related conditions"
  else if incident_type = "event" then severity_cap severity ++ " special event causing congestion"
  else severity_cap severity ++ " traffic incident"

/-- `_apply_incident_effect`: bump the first edge carrying `edge_id` by
`severity*0.8` and every edge sharing an endpoint with it (other than edges
with the same id) by `severity*0.5`, all capped at 1. -/
def apply_incident_effect (edges : List TEdge) (edge_id : String) (severity : ℚ) :
    List TEdge :=
  match findIdxEdge edge_id edges with
  | none => edges
  | some (idx, target) =>
    mapWithIdx (fun i e =>
      if i = idx then { e with weight := min 1 (e.weight + severity * (4/5)) }
      else if e.id ≠ target.id ∧ adjacentTo target e then
        { e with weight := min 1 (e.weight + severity * (1/2)) }
      else e) edges

/-- `create_incident`.  `now` stands for the `int(time.time() * 1000)` reads
(modelled as a single instant), `idSuffix` for the uuid fragment, and
`rType1`/`rType2` for the two independent `_get_random_incident_type()` calls
the source makes when `incident_type` is absent. -/
def create_incident (edges : List TEdge) (incidents : List TIncident)
    (now : ℤ) (idSuffix rType1 rType2 : String)
    (edge_id : String) (severity duration : ℚ) (incident_type : Option String) :
    Except String (TIncident × List TEdge × List TIncident) :=
  match findIdxEdge edge_id edges with
  | none => Except.error ("Edge not found: " ++ edge_id)
  | some (idx, edge) =>
    if edge.isIncident then
      Except.error ("Edge " ++ edge_id ++ " already has an active incident")
    else
      Except.ok
        (⟨"incident_" ++ toString now ++ "_" ++ idSuffix, edge_id, edge.src, edge.dst,
          clamp01 severity, now, now + ⌊max 10000 (min 3600000 duration)⌋,
          incident_type.getD rType1,
          get_incident_description (incident_type.getD rType2) (clamp01 severity)⟩,
         apply_incident_effect
           (mapWithIdx (fun i e =>
             if i = idx then
               { e with isIncident := true, incidentSeverity := clamp01 severity }
             else e) edges)
           edge_id (clamp01 severity),
         incidents ++
           [⟨"incident_" ++ toString now ++ "_" ++ idSuffix, edge_id, edge.src, edge.dst,
             clamp01 severity, now, now + ⌊max 10000 (min 3600000 duration)⌋,
             incident_type.getD rType1,
             get_incident_description (incident_type.getD rType2) (clamp01 severity)⟩])

/-- Reset the incident flags of the first edge carrying `edge_id`. -/
def clear_edge_flags (edges : List TEdge) (edge_id : String) : List TEdge :=
  match findIdxEdge edge_id edges with
  | none => edges
  | some (idx, _) =>
    mapWithIdx (fun i e =>
      if i = idx then { e with isIncident := false, incidentSeverity := 0 } else e) edges

/-- `list.remove`: drop the first occurrence of a value. -/
def removeFirst [DecidableEq α] : List α → α → List α
  | [], _ => []
  | a :: t, b => if a = b then t else a :: removeFirst t b

/-- `_update_incidents` at wall-clock `now`. -/
def update_incidents (st : GenState) (now : ℤ) : GenState :=
  { st with
    edges := (st.incidents.filter (fun i => decide (now ≥ i.endTime))).foldl
      (fun es i => clear_edge_flags es i.edgeId) st.edges,
    incidents := (st.incidents.filter (fun i => decide (now ≥ i.endTime))).foldl
      removeFirst st.incidents }

/-- `clear_incident`. -/
def clear_incident (st : GenState) (incident_id : String) :
    Except String (TIncident × GenState) :=
  match st.incidents.find? (fun i => i.id == incident_id) with
  | none => Except.error ("Incident not found: " ++ incident_id)
  | some incident =>
    Except.ok (incident,
      { st with edges := clear_edge_flags st.edges incident.edgeId,
                incidents := removeFirst st.incidents incident })

/-- Oracle draws consumed while updating one edge during a tick. -/
structure EdgeDraws where
  rChange : ℚ
  rAdjProb : ℚ
  rAdj : ℚ
  rVehicle : ℤ
  rIncProb : ℚ
  rSev : ℚ
  rDur : ℚ
  incNow : ℤ
  incSuffix : String
  incType1 : String
  incType2 : String

/-- The rush-hour multiplier of `_update_traffic`, from `datetime.now().hour`. -/
def time_multiplier (hour : ℤ) : ℚ :=
  if 7 ≤ hour ∧ hour ≤ 9 then 3/2
  else if 17 ≤ hour ∧ hour ≤ 19 then 8/5
  else if 23 ≤ hour ∨ hour ≤ 5 then 2/5
  else 1

/-- One iteration of the `for edge in self.edges` loop of `_update_traffic`,
acting on the edge at position `i` of the current state. -/
def update_edge_at (cfg : TConfig) (mult : ℚ) (dr : EdgeDraws)
    (edges : List TEdge) (incidents : List TIncident) (i : ℕ) :
    List TEdge × List TIncident :=
  match edges.get? i with
  | none => (edges, incidents)
  | some e =>
    match clamp01
        ((e.weight * (17/20) + get_average_neighbor_traffic cfg edges e * (1/20)
            + (dr.rChange - 1/2) * (1/5)
          + (if dr.rAdjProb < 1/20 then (dr.rAdj - 1/2) * (3/20) else 0)) * mult) with
    | nt =>
      match edges.set i
          { e with weight := nt, speed := calculate_speed nt,
                   vehicleCount := max 0 (⌊nt * 100⌋ + dr.rVehicle) } with
      | edges2 =>
        if ¬ e.isIncident ∧ dr.rIncProb < cfg.incident_probability then
          match create_incident edges2 incidents dr.incNow dr.incSuffix
              dr.incType1 dr.incType2 e.id (dr.rSev * (1/2) + 3/10)
              (30000 + dr.rDur * 60000) none with
          | Except.ok (_, es, inc) => (es, inc)
          | Except.error _ => (edges2, incidents)
        else (edges2, incidents)

/-- `_update_traffic`: update every edge in order, then expire incidents at
wall-clock `now2`.  (`_emit_update` only notifies observers and is omitted.) -/
def update_traffic (st : GenState) (hour : ℤ) (draws : ℕ → EdgeDraws) (now2 : ℤ) :
    GenState :=
  update_incidents
    { st with
      update_count := st.update_count + 1,
      edges := ((List.range st.edges.length).foldl
        (fun acc i =>
          update_edge_at st.config (time_multiplier hour) (draws i) acc.1 acc.2 i)
        (st.edges, st.incidents)).1,
      incidents := ((List.range st.edges.length).foldl
        (fun acc i =>
          update_edge_at st.config (time_multiplier hour) (draws i) acc.1 acc.2 i)
        (st.edges, st.incidents)).2 }
    now2

/-- Oracle draws consumed by `_initialize_graph` and `_ensure_connectivity`. -/
structure InitDraws where
  pos : ℕ → ℚ × ℚ
  connectCount : ℕ → ℕ
  density : ℕ → ℕ → ℚ
  traffic : ℕ → ℕ → ℚ
  vehicle : ℕ → ℕ → ℤ
  connTraffic : ℕ → ℚ
  connVehicle : ℕ → ℤ

/-- The vertex-creation loop of `_initialize_graph`. -/
def init_vertices (cfg : TConfig) (draws : InitDraws) : List TVertex :=
  (List.range cfg.node_count).map (fun i =>
    ⟨"node_" ++ toString i, "Intersection " ++ toString (i + 1),
     (draws.pos i).1 * 800 + 50, (draws.pos i).2 * 500 + 50⟩)

/-- Squared planar distance; the source sorts and minimizes over
`math.sqrt` of this quantity, and squaring is strictly monotone on
nonnegative reals, so all comparisons agree. -/
def sq_dist (a b : TVertex) : ℚ :=
  (a.x - b.x) * (a.x - b.x) + (a.y - b.y) * (a.y - b.y)

/-- The `distances` list of vertex `i`: every index paired with its (squared)
distance, `inf` for `i` itself, sorted ascending.  `List.insertionSort` is
stable, like Python's `list.sort`. -/
def neighbor_order (vs : List TVertex) (a : TVertex) (i : ℕ) : List (ℕ × WithTop ℚ) :=
  List.insertionSort (fun p q => p.2 ≤ q.2)
    ((List.range vs.length).map (fun j =>
      if j = i then (j, (⊤ : WithTop ℚ))
      else match vs.get? j with
           | some b => (j, ((sq_dist a b : ℚ) : WithTop ℚ))
           | none => (j, ⊤)))

/-- A freshly created edge of the wiring pass. -/
def mk_init_edge (cfg : TConfig) (nEdges : ℕ) (a : TVertex) (bid : String)
    (r : ℚ) (vc : ℤ) : TEdge :=
  ⟨"edge_" ++ toString nEdges, a.id, bid,
   generate_random_traffic cfg r,
   calculate_speed (generate_random_traffic cfg r), vc, false, 0, true⟩

/-- The body of the `for i in range(len(self.vertices))` wiring loop. -/
def wire_vertex (cfg : TConfig) (draws : InitDraws) (vs : List TVertex)
    (acc : List TEdge × List (ℕ × ℕ)) (i : ℕ) : List TEdge × List (ℕ × ℕ) :=
  match vs.get? i with
  | none => acc
  | some a =>
    (List.range (min (2 + draws.connectCount i) vs.length)).foldl
      (fun acc2 k =>
        match (neighbor_order vs a i).get? k with
        | none => acc2
        | some (j, _) =>
          match vs.get? j with
          | none => acc2
          | some b =>
            if (min i j, max i j) ∉ acc2.2 ∧
                draws.density i k < cfg.road_density + 1/2 then
              (acc2.1 ++ [mk_init_edge cfg acc2.1.length a b.id
                  (draws.traffic i k) (draws.vehicle i k)],
               (min i j, max i j) :: acc2.2)
            else acc2) acc

/-- The strict-minimum scan of `_ensure_connectivity` over already-connected
vertices (first minimum wins, as in the source's `<` comparison). -/
def nearest_connected (vs : List TVertex) (connected : List String) (v : TVertex) :
    Option TVertex :=
  (vs.foldl (fun (best : Option (TVertex × ℚ)) o =>
    if o.id ∈ connected then
      match best with
      | none => some (o, sq_dist v o)
      | some (_, bd) => if sq_dist v o < bd then some (o, sq_dist v o) else best
    else best) none).map Prod.fst

/-- The endpoints currently covered by some edge (`connected_nodes`). -/
def covered (edges : List TEdge) : List String :=
  edges.foldl (fun l e => l ++ [e.src, e.dst]) []

/-- `_ensure_connectivity`. -/
def ensure_connectivity (cfg : TConfig) (draws : InitDraws) (vs : List TVertex)
    (edges0 : List TEdge) : List TEdge :=
  ((List.range vs.length).foldl
    (fun (acc : List TEdge × List String) idx =>
      match vs.get? idx with
      | none => acc
      | some v =>
        if v.id ∈ acc.2 then acc
        else
          match nearest_connected vs acc.2 v with
          | none => acc
          | some u =>
            (acc.1 ++ [⟨"edge_" ++ toString acc.1.length, v.id, u.id,
                generate_random_traffic cfg (draws.connTraffic idx),
                calculate_speed (generate_random_traffic cfg (draws.connTraffic idx)),
                draws.connVehicle idx, false, 0, true⟩],
             v.id :: acc.2))
    (edges0, covered edges0)).1

/-- `_initialize_graph`: vertices, wiring pass, connectivity repair pass. -/
def initialize_graph (cfg : TConfig) (draws : InitDraws) :
    List TVertex × List TEdge :=
  (init_vertices cfg draws,
   ensure_connectivity cfg draws (init_vertices cfg draws)
     (((List.range (init_vertices cfg draws).length).foldl
        (wire_vertex cfg draws (init_vertices cfg draws)) ([], [])).1))

/-- `TrafficGenerator.__init__` followed by the initial `_initialize_graph`. -/
def init_state (cfg : TConfig) (draws : InitDraws) : GenState :=
  ⟨cfg, (initialize_graph cfg draws).1, (initialize_graph cfg draws).2, [], 0⟩

/-- Configuration after the topology-affecting part of `update_config`
(`node_count` is only rewritten when it differs, which `getD` reproduces). -/
def cfg_topo (cfg : TConfig) (nc : Option ℕ) (rd : Option ℚ) : TConfig :=
  { cfg with
    node_count := nc.getD cfg.node_count,
    road_density := rd.getD cfg.road_density }

/-- The `needs_reinit` flag of `update_config`. -/
def needs_reinit (cfg : TConfig) (nc : Option ℕ) (rd : Option ℚ) : Bool :=
  (match nc with
   | some n => decide (n ≠ cfg.node_count)
   | none => false) || rd.isSome

/-- `update_config`: a partial configuration update; vertex-count or
road-density changes regenerate the graph, other fields just take effect. -/
def update_config (st : GenState) (nc : Option ℕ) (rd : Option ℚ)
    (ui bt tv ip : Option ℚ) (draws : InitDraws) : GenState :=
  { config :=
      { node_count := (cfg_topo st.config nc rd).node_count,
        update_interval := ui.getD st.config.update_interval,
        base_traffic_level := bt.getD st.config.base_traffic_level,
        traffic_variability := tv.getD st.config.traffic_variability,
        incident_probability := ip.getD st.config.incident_probability,
        road_density := (cfg_topo st.config nc rd).road_density },
    vertices :=
      if needs_reinit st.config nc rd then
        (initialize_graph (cfg_topo st.config nc rd) draws).1
      else st.vertices,
    edges :=
      if needs_reinit st.config nc rd then
        (initialize_graph (cfg_topo st.config nc rd) draws).2
      else st.edges,
    incidents := st.incidents,
    update_count := st.update_count }

/-- The generator operations a claim's "every operation" ranges over. -/
inductive Op where
  | tick (hour : ℤ) (draws : ℕ → EdgeDraws) (now2 : ℤ)
  | createInc (now : ℤ) (idSuffix rType1 rType2 : String) (edge_id : String)
      (severity duration : ℚ) (incident_type : Option String)
  | clearInc (incident_id : String)
  | updateConfig (nc : Option ℕ) (rd : Option ℚ) (ui bt tv ip : Option ℚ)
      (draws : InitDraws)

/-- Apply one operation; a raised `ValueError` leaves the state unchanged
(the exception propagates to the HTTP layer before any mutation). -/
def apply_op (st : GenState) : Op → GenState
  | Op.tick h d n => update_traffic st h d n
  | Op.createInc now suf t1 t2 eid sev dur ity =>
    match create_incident st.edges st.incidents now suf t1 t2 eid sev dur ity with
    | Except.ok (_, es, inc) => { st with edges := es, incidents := inc }
    | Except.error _ => st
  | Op.clearInc iid =>
    match clear_incident st iid with
    | Except.ok (_, st2) => st2
    | Except.error _ => st
  | Op.updateConfig nc rd ui bt tv ip draws =>
    update_config st nc rd ui bt tv ip draws

/-- All edge weights lie in the unit interval. -/
def EdgesOk (es : List TEdge) : Prop :=
  ∀ e ∈ es, 0 ≤ e.weight ∧ e.weight ≤ 1

/-- The derived-speed relation of the specification. -/
def SpeedOk (e : TEdge) : Prop := e.speed = calculate_speed e.weight

/-- What holds of every freshly generated edge: unit-interval weight and the
derived-speed relation. -/
def FreshEdge (e : TEdge) : Prop :=
  (0 ≤ e.weight ∧ e.weight ≤ 1) ∧ e.speed = calculate_speed e.weight

/-- The first edge carrying `edge_id`, if any, has its incident flags reset. -/
def FlagsCleared (edges : List TEdge) (edge_id : String) : Prop :=
  ∀ idx e, findIdxEdge edge_id edges = some (idx, e) →
    e.isIncident = false ∧ e.incidentSeverity = 0

/-- A sample configuration: two nodes, defaults otherwise. -/
def ex_cfg : TConfig := ⟨2, 30000, 3/20, 7/20, 1/100000, 3/10⟩

/-- Draws under which the wiring pass creates exactly the edge node_0-node_1. -/
def ex_drawsA : InitDraws :=
  ⟨fun i => if i = 0 then (0, 0) else (1/2, 1/2), fun _ => 0,
   fun i k => if i = 0 ∧ k = 0 then 1/10 else 9/10, fun _ _ => 1/2, fun _ _ => 0,
   fun _ => 1/2, fun _ => 0⟩

/-- Draws under which every density check fails, so no edge is ever created. -/
def ex_drawsB : InitDraws :=
  ⟨fun i => if i = 0 then (0, 0) else (1/2, 1/2), fun _ => 0,
   fun _ _ => 9/10, fun _ _ => 1/2, fun _ _ => 0, fun _ => 1/2, fun _ => 0⟩

/-- The single edge generated under `ex_drawsA`. -/
def ex_edge : TEdge := ⟨"edge_0", "node_0", "node_1", 3/20, 52, 0, false, 0, true⟩

/-- A three-edge fixture: `e1` shares endpoint `b` with `e0`; `e2` is disjoint. -/
def c4_edges : List TEdge :=
  [⟨"e0", "a", "b", 1/5, 49, 0, false, 0, true⟩,
   ⟨"e1", "b", "c", 1/5, 49, 0, false, 0, true⟩,
   ⟨"e2", "x", "y", 1/5, 49, 0, false, 0, true⟩]

/-- Tick draws that trigger neither the occasional adjustment nor a
spontaneous incident. -/
def c5_draws : EdgeDraws := ⟨1/2, 1, 1/2, 0, 1, 1/2, 1/2, 0, "u", "accident", "accident"⟩

/-- The state of `edge_0` after one quiet tick from `init_state ex_cfg ex_drawsA`. -/
def c5_after : TEdge := ⟨"edge_0", "node_0", "node_1", 27/200, 53, 13, false, 0, true⟩

/-- An edge carrying an active incident, and that incident, already expired. -/
def c6_edge : TEdge := ⟨"e0", "a", "b", 1/2, 33, 0, true, 1/2, true⟩

/-- An incident on `c6_edge` whose `endTime` (5) has passed. -/
def c6_inc : TIncident := ⟨"i0", "e0", "a", "b", 1/2, 0, 5, "accident", "d"⟩

/-- A generator state holding `c6_edge` and the expired `c6_inc`. -/
def c6_state : GenState := ⟨ex_cfg, [], [c6_edge], [c6_inc], 0⟩

/-- The state of `e0` after the tick at wall-clock 10: flags reset. -/
def c6_after : TEdge := ⟨"e0", "a", "b", 173/400, 36, 43, false, 0, true⟩

end TrafficApi

namespace TravellerApi

/-!
Embedding of `modules/traveller-api/src/backend/workflows/traveller.py`.

The two activities (`fetch_traffic_model`, `fetch_route`) are external HTTP
calls; the route returned by graph-api is supplied by an oracle function from
the `(current_node, end_node)` query to the route list.  One iteration of the
`while self.route_index < len(self.route)` loop of `run` is a Step.
-/

/-- `TravellerInput`. -/
structure TravellerInput where
  start_node : String
  end_node : String
  workflow_id : String
deriving DecidableEq

/-- The workflow's instance state. -/
structure WState where
  current_node : String
  end_node : String
  route : List String
  route_index : ℕ
  status : String
  workflow_id : String
  interrupted : Bool
deriving DecidableEq

/-- `TravellerWorkflow.__init__`. -/
def initState : WState := ⟨"", "", [], 0, "Walking", "", false⟩

/-- `_calculate_route`: store the route the graph-api returns for the current
position and reset `route_index`. -/
def calculate_route (oracle : String → String → List String) (st : WState) : WState :=
  { st with route := oracle st.current_node st.end_node, route_index := 0 }

/-- The prologue of `run`: record the ids and compute the initial route. -/
def run_start (oracle : String → String → List String) (input : TravellerInput) :
    WState :=
  calculate_route oracle
    { initState with
      workflow_id := input.workflow_id,
      current_node := input.start_node,
      end_node := input.end_node }

/-- One iteration of the walk loop of `run` (a Step), for states satisfying
the loop guard `route_index < len(route)`; the out-of-range default of `getD`
is unreachable under the guard. -/
def step (oracle : String → String → List String) (st : WState) : WState :=
  if st.interrupted then
    { calculate_route oracle st with interrupted := false }
  else if st.route.getD st.route_index st.current_node = st.end_node then
    { st with
      current_node := st.route.getD st.route_index st.current_node,
      status := "Finished" }
  else
    { st with
      current_node := st.route.getD st.route_index st.current_node,
      route_index := st.route_index + 1 }

/-- The `interrupt` signal handler. -/
def interrupt (st : WState) : WState := { st with interrupted := true }

end TravellerApi

namespace GraphApi

theorem fstLe_of_not_pqLe {x y : ℚ × String} (h : ¬ pqLe x y) : FstLe y x := by
  unfold pqLe at h
  push_neg at h
  exact h.1

theorem mem_pqInsert {x p : ℚ × String} {l : List (ℚ × String)} :
    p ∈ pqInsert x l ↔ p = x ∨ p ∈ l := by
  induction l with
  | nil => simp [pqInsert]
  | cons y ys ih =>
    by_cases h : pqLe x y
    · simp [pqInsert, if_pos h]
    · simp only [pqInsert, if_neg h, List.mem_cons, ih]
      tauto

theorem pqInsert_pairwise {x : ℚ × String} {l : List (ℚ × String)}
    (hl : l.Pairwise FstLe) (hx : ∀ y ∈ l, ¬ pqLe x y → FstLe y x) :
    (pqInsert x l).Pairwise FstLe := by
  induction l with
  | nil => simp [pqInsert]
  | cons y ys ih =>
    rcases List.pairwise_cons.mp hl with ⟨hy, hys⟩
    by_cases h : pqLe x y
    · rw [pqInsert, if_pos h]
      refine List.pairwise_cons.mpr ⟨?_, hl⟩
      intro z hz
      rcases List.mem_cons.mp hz with rfl | hz
      · rcases h with h | ⟨h, _⟩
        · exact le_of_lt h
        · exact le_of_eq h
      · rcases h with h | ⟨h, _⟩
        · exact le_trans (le_of_lt h) (hy z hz)
        · exact le_trans (le_of_eq h) (hy z hz)
    · rw [pqInsert, if_neg h]
      refine List.pairwise_cons.mpr ⟨?_, ih hys (fun z hz hnz => hx z (List.mem_cons_of_mem _ hz) hnz)⟩
      intro z hz
      rcases mem_pqInsert.mp hz with rfl | hz
      · exact hx y (List.mem_cons_self _ _) h
      · exact hy z hz

theorem length_pqInsert (x : ℚ × String) (l : List (ℚ × String)) :
    (pqInsert x l).length = l.length + 1 := by
  induction l with
  | nil => rfl
  | cons y ys ih =>
    by_cases h : pqLe x y
    · simp [pqInsert, if_pos h]
    · simp [pqInsert, if_neg h, ih]

theorem pq_head_min {d : ℚ} {v : String} {rest : List (ℚ × String)}
    (h : ((d, v) :: rest).Pairwise FstLe) :
    ∀ p ∈ (d, v) :: rest, d ≤ p.1 := by
  intro p hp
  rcases List.mem_cons.mp hp with rfl | hp
  · exact le_refl _
  · exact (List.pairwise_cons.mp h).1 p hp

theorem mem_adjacency {g : Graph} {v : String} {p : String × ℚ} :
    p ∈ adjacency g v ↔ ∃ e ∈ g.edges, e.from_vertex = v ∧ e.to_vertex = p.1 ∧ e.weight = p.2 := by
  unfold adjacency
  simp only [List.mem_map, List.mem_filter, beq_iff_eq]
  constructor
  · rintro ⟨e, ⟨he, hev⟩, rfl⟩
    exact ⟨e, he, hev, rfl, rfl⟩
  · rintro ⟨e, he, hev, h1, h2⟩
    obtain ⟨p1, p2⟩ := p
    exact ⟨e, ⟨he, hev⟩, by simp_all⟩

theorem adjacency_complete {g : Graph} {e : Edge} (he : e ∈ g.edges) :
    (e.to_vertex, e.weight) ∈ adjacency g e.from_vertex :=
  mem_adjacency.mpr ⟨e, he, rfl, rfl, rfl⟩

theorem length_adjacency_le (g : Graph) (v : String) :
    (adjacency g v).length ≤ g.edges.length := by
  unfold adjacency
  rw [List.length_map]
  exact List.length_filter_le _ _

theorem Reach.nonneg {g : Graph} {s v : String} {c : ℚ}
    (hpos : PosWeights g) (h : Reach g s v c) : 0 ≤ c := by
  induction h with
  | refl => exact le_refl 0
  | tail e _ he _ ih => exact add_nonneg ih (le_of_lt (hpos e he))

theorem reach_to_universe {g : Graph} {s v : String} {c : ℚ}
    (h : Reach g s v c) : v ∈ universeL g s := by
  cases h with
  | refl => exact List.mem_cons_self _ _
  | tail e _ he _ => exact List.mem_cons_of_mem _ (List.mem_map_of_mem _ he)

theorem dijkstraLoop_nil (g : Graph) (endId : String) (fuel : ℕ)
    (dist : String → WithTop ℚ) (prev : String → Option String) (visited : List String) :
    dijkstraLoop g endId fuel dist prev [] visited = some (dist, prev) := by
  cases fuel <;> rfl

theorem dijkstraLoop_succ (g : Graph) (endId : String) (fuel : ℕ)
    (dist : String → WithTop ℚ) (prev : String → Option String)
    (d : ℚ) (v : String) (rest : List (ℚ × String)) (visited : List String) :
    dijkstraLoop g endId (fuel + 1) dist prev ((d, v) :: rest) visited =
      if v ∈ visited then
        dijkstraLoop g endId fuel dist prev rest visited
      else if v = endId then some (dist, prev)
      else if dist v < (d : WithTop ℚ) then
        dijkstraLoop g endId fuel dist prev rest (v :: visited)
      else
        dijkstraLoop g endId fuel
          (relaxAll dist prev rest d v (adjacency g v)).1
          (relaxAll dist prev rest d v (adjacency g v)).2.1
          (relaxAll dist prev rest d v (adjacency g v)).2.2
          (v :: visited) := rfl

/-- When the head `(d, v)` of the queue is popped with `v` unvisited, `d` is a
lower bound on the cost of every path reaching any unvisited vertex: the heart
of Dijkstra's correctness argument. -/
theorem popMin {g : Graph} {start endId : String}
    {dist : String → WithTop ℚ} {prev : String → Option String}
    {d : ℚ} {v : String} {rest : List (ℚ × String)} {visited : List String}
    (hpos : PosWeights g)
    (inv : Inv g start endId dist prev ((d, v) :: rest) visited) :
    ∀ t (c : ℚ), t ∉ visited → Reach g start t c → d ≤ c := by
  intro t c ht hr
  induction hr with
  | refl =>
    have h0 : ((0 : ℚ), start) ∈ (d, v) :: rest := inv.cover start ht 0 inv.startDist
    exact pq_head_min inv.sorted _ h0
  | @tail u c' e hru he hefrom ih =>
    by_cases hu : u ∈ visited
    · have hune : u ≠ endId := by
        intro h
        exact inv.endNotVis (h ▸ hu)
      have h1 : dist e.to_vertex ≤ dist u + (e.weight : WithTop ℚ) :=
        inv.relaxed u hu hune e he hefrom
      have h2 : dist u ≤ (c' : WithTop ℚ) := inv.visMin u hu c' hru
      have h3 : dist e.to_vertex ≤ ((c' + e.weight : ℚ) : WithTop ℚ) := by
        calc dist e.to_vertex ≤ dist u + (e.weight : WithTop ℚ) := h1
          _ ≤ (c' : WithTop ℚ) + (e.weight : WithTop ℚ) := add_le_add_right h2 _
          _ = ((c' + e.weight : ℚ) : WithTop ℚ) := (WithTop.coe_add c' e.weight).symm
      have h4 : dist e.to_vertex ≠ ⊤ := ne_top_of_le_ne_top (WithTop.coe_ne_top) h3
      obtain ⟨ct, hct⟩ := WithTop.ne_top_iff_exists.mp h4
      have h5 : (ct, e.to_vertex) ∈ (d, v) :: rest := inv.cover _ ht ct hct.symm
      have h6 : d ≤ ct := pq_head_min inv.sorted _ h5
      have h7 : ct ≤ c' + e.weight := by
        rw [← hct] at h3
        exact_mod_cast h3
      linarith
    · have h8 : d ≤ c' := ih hu
      have h9 : 0 < e.weight := hpos e he
      linarith

theorem relaxOne_mid {g : Graph} {v : String} {d : ℚ} {visited : List String}
    {dist0 : String → WithTop ℚ} {prev0 : String → Option String}
    {dist : String → WithTop ℚ} {prev : String → Option String}
    {pq : List (ℚ × String)}
    (hpos : PosWeights g) (nb : String × ℚ)
    (hnb : ∃ e ∈ g.edges, e.from_vertex = v ∧ e.to_vertex = nb.1 ∧ e.weight = nb.2)
    (hm : Mid g v d visited dist0 prev0 dist prev pq) :
    Mid g v d visited dist0 prev0 (relaxOne v d (dist, prev, pq) nb).1
      (relaxOne v d (dist, prev, pq) nb).2.1 (relaxOne v d (dist, prev, pq) nb).2.2 ∧
    (∀ x, (relaxOne v d (dist, prev, pq) nb).1 x ≤ dist x) ∧
    (relaxOne v d (dist, prev, pq) nb).1 nb.1 ≤ ((d + nb.2 : ℚ) : WithTop ℚ) ∧
    (relaxOne v d (dist, prev, pq) nb).2.2.length ≤ pq.length + 1 := by
  obtain ⟨e, he, hev, heto, hew⟩ := hnb
  by_cases hlt : ((d + nb.2 : ℚ) : WithTop ℚ) < dist nb.1
  · have hne : nb.1 ≠ v := by
      intro h
      rw [h, hm.atV, WithTop.coe_lt_coe] at hlt
      have : 0 < nb.2 := hew ▸ hpos e he
      linarith
    simp only [relaxOne, if_pos hlt]
    have hstep : ∀ x, Function.update dist nb.1 ((d + nb.2 : ℚ) : WithTop ℚ) x ≤ dist x := by
      intro x
      rcases eq_or_ne x nb.1 with rfl | hx
      · rw [Function.update_same]
        exact le_of_lt hlt
      · rw [Function.update_noteq hx]
    refine ⟨⟨?_, ?_, ?_, ?_, ?_, ?_⟩, hstep, ?_, ?_⟩
    · intro x
      exact le_trans (hstep x) (hm.mono x)
    · intro x
      rcases eq_or_ne x nb.1 with rfl | hx
      · refine Or.inr ⟨e, he, hev, heto, ?_, ?_, ?_⟩
        · rw [Function.update_same, hew]
        · rw [Function.update_same]
        · rw [Function.update_same]
          exact lt_of_lt_of_le hlt (hm.mono _)
      · rw [Function.update_noteq hx, Function.update_noteq hx]
        exact hm.updOrKeep x
    · intro x hx c hc
      rcases eq_or_ne x nb.1 with rfl | hxne
      · rw [Function.update_same] at hc
        have : c = d + nb.2 := by exact_mod_cast hc.symm
        rw [this]
        exact mem_pqInsert.mpr (Or.inl rfl)
      · rw [Function.update_noteq hxne] at hc
        exact mem_pqInsert.mpr (Or.inr (hm.cover x hx c hc))
    · intro p hp
      rcases mem_pqInsert.mp hp with rfl | hp
      · rw [Function.update_same]
      · exact le_trans (hstep p.2) (hm.pqBound p hp)
    · exact pqInsert_pairwise hm.sorted (fun y _ h => fstLe_of_not_pqLe h)
    · rw [Function.update_noteq (Ne.symm hne)]
      exact hm.atV
    · rw [Function.update_same]
    · rw [length_pqInsert]
  · simp only [relaxOne, if_neg hlt]
    exact ⟨hm, fun x => le_refl _, not_lt.mp hlt, Nat.le_succ _⟩

theorem relaxAll_mid {g : Graph} {v : String} {d : ℚ} {visited : List String}
    {dist0 : String → WithTop ℚ} {prev0 : String → Option String}
    (hpos : PosWeights g) :
    ∀ (nbs : List (String × ℚ)) (dist : String → WithTop ℚ) (prev : String → Option String)
      (pq : List (ℚ × String)),
    (∀ p ∈ nbs, ∃ e ∈ g.edges, e.from_vertex = v ∧ e.to_vertex = p.1 ∧ e.weight = p.2) →
    Mid g v d visited dist0 prev0 dist prev pq →
    Mid g v d visited dist0 prev0 (relaxAll dist prev pq d v nbs).1
      (relaxAll dist prev pq d v nbs).2.1 (relaxAll dist prev pq d v nbs).2.2 ∧
    (∀ x, (relaxAll dist prev pq d v nbs).1 x ≤ dist x) ∧
    (∀ p ∈ nbs, (relaxAll dist prev pq d v nbs).1 p.1 ≤ ((d + p.2 : ℚ) : WithTop ℚ)) ∧
    (relaxAll dist prev pq d v nbs).2.2.length ≤ pq.length + nbs.length := by
  intro nbs
  induction nbs with
  | nil =>
    intro dist prev pq _ hm
    exact ⟨hm, fun x => le_refl _, by simp, by simp [relaxAll]⟩
  | cons nb nbs ih =>
    intro dist prev pq hnbs hm
    obtain ⟨hm1, hstep, hrel, hlen⟩ :=
      relaxOne_mid hpos nb (hnbs nb (List.mem_cons_self _ _)) hm
    have hfold : relaxAll dist prev pq d v (nb :: nbs) =
        relaxAll (relaxOne v d (dist, prev, pq) nb).1
          (relaxOne v d (dist, prev, pq) nb).2.1
          (relaxOne v d (dist, prev, pq) nb).2.2 d v nbs := by
      unfold relaxAll
      rw [List.foldl_cons]
    obtain ⟨hm2, hmono2, hrel2, hlen2⟩ :=
      ih (relaxOne v d (dist, prev, pq) nb).1 (relaxOne v d (dist, prev, pq) nb).2.1
        (relaxOne v d (dist, prev, pq) nb).2.2
        (fun p hp => hnbs p (List.mem_cons_of_mem _ hp)) hm1
    rw [hfold]
    refine ⟨hm2, ?_, ?_, ?_⟩
    · intro x
      exact le_trans (hmono2 x) (hstep x)
    · intro p hp
      rcases List.mem_cons.mp hp with rfl | hp
      · exact le_trans (hmono2 p.1) hrel
      · exact hrel2 p hp
    · calc (relaxAll _ _ _ d v nbs).2.2.length
          ≤ (relaxOne v d (dist, prev, pq) nb).2.2.length + nbs.length := hlen2
        _ ≤ pq.length + 1 + nbs.length := by omega
        _ = pq.length + (nb :: nbs).length := by simp [List.length_cons]; omega

/-- When the queue is exhausted every label is a lower bound on every path cost. -/
theorem exhausted_min {g : Graph} {start endId : String}
    {dist : String → WithTop ℚ} {prev : String → Option String} {visited : List String}
    (inv : Inv g start endId dist prev [] visited) :
    ∀ t (c : ℚ), Reach g start t c → dist t ≤ (c : WithTop ℚ) := by
  intro t c hr
  induction hr with
  | refl => exact le_of_eq inv.startDist
  | @tail u c' e hru he hefrom ih =>
    have hu_fin : dist u ≠ ⊤ := ne_top_of_le_ne_top WithTop.coe_ne_top ih
    obtain ⟨cu, hcu⟩ := WithTop.ne_top_iff_exists.mp hu_fin
    have hu_vis : u ∈ visited := by
      by_contra hnv
      exact absurd (inv.cover u hnv cu hcu.symm) (List.not_mem_nil _)
    have hu_ne : u ≠ endId := by
      intro h
      exact inv.endNotVis (h ▸ hu_vis)
    calc dist e.to_vertex ≤ dist u + (e.weight : WithTop ℚ) :=
          inv.relaxed u hu_vis hu_ne e he hefrom
      _ ≤ (c' : WithTop ℚ) + (e.weight : WithTop ℚ) := add_le_add_right ih _
      _ = ((c' + e.weight : ℚ) : WithTop ℚ) := (WithTop.coe_add c' e.weight).symm

/-- On a pop of an unvisited head `(d, v)`, the stored label of `v` is exactly
`d` (so the source's stale-entry skip never fires for a first pop). -/
theorem head_label {g : Graph} {start endId : String}
    {dist : String → WithTop ℚ} {prev : String → Option String}
    {d : ℚ} {v : String} {rest : List (ℚ × String)} {visited : List String}
    (inv : Inv g start endId dist prev ((d, v) :: rest) visited)
    (hv : v ∉ visited) : dist v = (d : WithTop ℚ) := by
  have hle : dist v ≤ (d : WithTop ℚ) := inv.pqBound (d, v) (List.mem_cons_self _ _)
  have hfin : dist v ≠ ⊤ := ne_top_of_le_ne_top WithTop.coe_ne_top hle
  obtain ⟨c, hc⟩ := WithTop.ne_top_iff_exists.mp hfin
  have hmem : (c, v) ∈ (d, v) :: rest := inv.cover v hv c hc.symm
  have hdc : d ≤ c := pq_head_min inv.sorted _ hmem
  have hcd : c ≤ d := by
    rw [← hc] at hle
    exact_mod_cast hle
  rw [← hc]
  exact_mod_cast le_antisymm hcd hdc

/-- Processing an unvisited, non-target pop preserves the loop invariant. -/
theorem processInv {g : Graph} {start endId : String}
    {dist : String → WithTop ℚ} {prev : String → Option String}
    {d : ℚ} {v : String} {rest : List (ℚ × String)} {visited : List String}
    (hpos : PosWeights g)
    (inv : Inv g start endId dist prev ((d, v) :: rest) visited)
    (hv : v ∉ visited) (hvend : v ≠ endId) :
    Inv g start endId (relaxAll dist prev rest d v (adjacency g v)).1
      (relaxAll dist prev rest d v (adjacency g v)).2.1
      (relaxAll dist prev rest d v (adjacency g v)).2.2 (v :: visited) := by
  have hdv : dist v = (d : WithTop ℚ) := head_label inv hv
  have hreach : Reach g start v d := inv.sound v d hdv
  have hd0 : 0 ≤ d := hreach.nonneg hpos
  have hmid0 : Mid g v d visited dist prev dist prev rest := by
    refine ⟨fun x => le_refl _, fun x => Or.inl ⟨rfl, rfl⟩, ?_, ?_, List.Pairwise.of_cons inv.sorted, hdv⟩
    · intro x hx c hc
      have hx_v : x ≠ v := fun h => hx (h ▸ List.mem_cons_self _ _)
      have hx_vis : x ∉ visited := fun h => hx (List.mem_cons_of_mem _ h)
      have := inv.cover x hx_vis c hc
      rcases List.mem_cons.mp this with heq | hmem
      · exact absurd (congrArg Prod.snd heq) hx_v
      · exact hmem
    · intro p hp
      exact inv.pqBound p (List.mem_cons_of_mem _ hp)
  obtain ⟨hm, hmono, hrel, _⟩ :=
    relaxAll_mid hpos (adjacency g v) dist prev rest
      (fun p hp => mem_adjacency.mp hp) hmid0
  have hKeepVisited : ∀ u ∈ visited,
      (relaxAll dist prev rest d v (adjacency g v)).1 u = dist u := by
    intro u hu
    rcases hm.updOrKeep u with ⟨h1, _⟩ | ⟨e, he, hev, heto, hdist, _, hlt⟩
    · exact h1
    · exfalso
      have hre : Reach g start e.to_vertex (d + e.weight) := Reach.tail e hreach he hev
      rw [heto] at hre
      have := inv.visMin u hu _ hre
      rw [← hdist] at this
      exact absurd (lt_of_le_of_lt this hlt) (lt_irrefl _)
  refine ⟨?_, ?_, hm.cover, hm.pqBound, ?_, hm.sorted, ?_, ?_, ?_, ?_, ?_, ?_⟩
  · -- sound
    intro x c hc
    rcases hm.updOrKeep x with ⟨h1, _⟩ | ⟨e, he, hev, heto, hdist, _, _⟩
    · exact inv.sound x c (h1 ▸ hc)
    · have : c = d + e.weight := by
        rw [hdist] at hc
        exact_mod_cast hc.symm
      rw [this, ← heto]
      exact Reach.tail e hreach he hev
  · -- visMin
    intro x hx c hr
    rcases List.mem_cons.mp hx with rfl | hx
    · rw [hm.atV, WithTop.coe_le_coe]
      exact popMin hpos inv x c hv hr
    · exact le_trans (hmono x) (inv.visMin x hx c hr)
  · -- relaxed
    intro u hu hune e he hefrom
    rcases List.mem_cons.mp hu with rfl | hu
    · have : (e.to_vertex, e.weight) ∈ adjacency g u := hefrom ▸ adjacency_complete he
      have h1 := hrel _ this
      rw [hm.atV, ← WithTop.coe_add]
      exact h1
    · have h1 := inv.relaxed u hu hune e he hefrom
      rw [hKeepVisited u hu]
      exact le_trans (hmono _) h1
  · -- prevInv
    intro x u hu
    rcases hm.updOrKeep x with ⟨h1, h2⟩ | ⟨e, he, hev, heto, hdist, hprev, _⟩
    · rw [h2] at hu
      obtain ⟨e, he, hefrom, heto, hle, hne⟩ := inv.prevInv x u hu
      refine ⟨e, he, hefrom, heto, ?_, h1 ▸ hne⟩
      rw [h1]
      exact le_trans (add_le_add_right (hmono u) _) hle
    · rw [hprev] at hu
      obtain rfl := Option.some_injective _ hu
      refine ⟨e, he, hev, heto, ?_, ?_⟩
      · rw [hm.atV, hdist, ← WithTop.coe_add]
      · rw [hdist]
        exact WithTop.coe_ne_top
  · -- startDist
    rcases hm.updOrKeep start with ⟨h1, _⟩ | ⟨e, he, _, _, hdist, _, hlt⟩
    · rw [h1, inv.startDist]
    · exfalso
      rw [hdist, inv.startDist, WithTop.coe_lt_coe] at hlt
      have : 0 < e.weight := hpos e he
      linarith
  · -- startPrev
    rcases hm.updOrKeep start with ⟨_, h2⟩ | ⟨e, he, _, _, hdist, _, hlt⟩
    · rw [h2, inv.startPrev]
    · exfalso
      rw [hdist, inv.startDist, WithTop.coe_lt_coe] at hlt
      have : 0 < e.weight := hpos e he
      linarith
  · -- hasPrev
    intro x hxs hxf
    rcases hm.updOrKeep x with ⟨h1, h2⟩ | ⟨_, _, _, _, _, hprev, _⟩
    · rw [h2]
      exact inv.hasPrev x hxs (h1 ▸ hxf)
    · rw [hprev]
      exact Option.some_ne_none _
  · -- endNotVis
    intro h
    rcases List.mem_cons.mp h with h | h
    · exact hvend h.symm
    · exact inv.endNotVis h
  · -- distUniv
    intro x hxf
    rcases hm.updOrKeep x with ⟨h1, _⟩ | ⟨e, he, _, heto, _, _, _⟩
    · exact inv.distUniv x (h1 ▸ hxf)
    · rw [← heto]
      exact List.mem_cons_of_mem _ (List.mem_map_of_mem _ he)

/-- The main loop both terminates within the given fuel and establishes the
exit conditions, whenever the invariant holds and the fuel dominates `phi`. -/
theorem dijkstraLoop_runs {g : Graph} {start endId : String} (hpos : PosWeights g) :
    ∀ (fuel : ℕ) (dist : String → WithTop ℚ) (prev : String → Option String)
      (pq : List (ℚ × String)) (visited : List String),
    Inv g start endId dist prev pq visited →
    phi g start pq visited < fuel →
    ∃ dp, dijkstraLoop g endId fuel dist prev pq visited = some dp ∧
      Post g start endId dp.1 dp.2 := by
  intro fuel
  induction fuel with
  | zero =>
    intro dist prev pq visited _ hphi
    exact absurd hphi (Nat.not_lt_zero _)
  | succ fuel ih =>
    intro dist prev pq visited inv hphi
    match pq with
    | [] =>
      refine ⟨(dist, prev), dijkstraLoop_nil .., ?_⟩
      exact ⟨inv.sound, inv.prevInv, inv.startDist, inv.startPrev, inv.hasPrev,
        inv.distUniv, fun c hr => exhausted_min inv endId c hr⟩
    | (d, v) :: rest =>
      rw [dijkstraLoop_succ]
      by_cases hv : v ∈ visited
      · rw [if_pos hv]
        have inv2 : Inv g start endId dist prev rest visited := by
          refine ⟨inv.sound, inv.visMin, ?_, ?_, inv.relaxed,
            List.Pairwise.of_cons inv.sorted, inv.prevInv, inv.startDist,
            inv.startPrev, inv.hasPrev, inv.endNotVis, inv.distUniv⟩
          · intro x hx c hc
            rcases List.mem_cons.mp (inv.cover x hx c hc) with heq | hmem
            · have hxv : x = v := congrArg Prod.snd heq
              exact absurd (hxv.symm ▸ hv) hx
            · exact hmem
          · intro p hp
            exact inv.pqBound p (List.mem_cons_of_mem _ hp)
        refine ih dist prev rest visited inv2 ?_
        have : phi g start ((d, v) :: rest) visited = phi g start rest visited + 1 := by
          simp [phi, List.length_cons]
          omega
        omega
      · rw [if_neg hv]
        by_cases hend : v = endId
        · rw [if_pos hend]
          refine ⟨(dist, prev), rfl, ?_⟩
          refine ⟨inv.sound, inv.prevInv, inv.startDist, inv.startPrev, inv.hasPrev,
            inv.distUniv, ?_⟩
          intro c hr
          have h1 : d ≤ c := popMin hpos inv endId c (hend ▸ hv) (hr)
          have h2 : dist endId ≤ (d : WithTop ℚ) :=
            hend ▸ inv.pqBound (d, v) (List.mem_cons_self _ _)
          exact le_trans h2 (by exact_mod_cast h1)
        · rw [if_neg hend]
          have hdv : dist v = (d : WithTop ℚ) := head_label inv hv
          have hstale : ¬ dist v < (d : WithTop ℚ) := by
            rw [hdv]
            exact lt_irrefl _
          rw [if_neg hstale]
          have inv2 := processInv hpos inv hv hend
          refine ih _ _ _ _ inv2 ?_
          -- measure decrease
          have hvU : v ∈ (universeL g start).toFinset := by
            rw [List.mem_toFinset]
            exact inv.distUniv v (by rw [hdv]; exact WithTop.coe_ne_top)
          have hsub : ((universeL g start).toFinset.filter (fun x => x ∉ v :: visited))
              ⊆ ((universeL g start).toFinset.filter (fun x => x ∉ visited)) := by
            intro x hx
            rw [Finset.mem_filter] at hx ⊢
            exact ⟨hx.1, fun h => hx.2 (List.mem_cons_of_mem _ h)⟩
          have hcard : ((universeL g start).toFinset.filter (fun x => x ∉ v :: visited)).card
              < ((universeL g start).toFinset.filter (fun x => x ∉ visited)).card := by
            refine Finset.card_lt_card ?_
            rw [Finset.ssubset_iff_of_subset hsub]
            refine ⟨v, ?_, ?_⟩
            · rw [Finset.mem_filter]
              exact ⟨hvU, hv⟩
            · rw [Finset.mem_filter]
              rintro ⟨-, h⟩
              exact h (List.mem_cons_self _ _)
          have hmid0 : Mid g v d visited dist prev dist prev rest := by
            refine ⟨fun x => le_refl _, fun x => Or.inl ⟨rfl, rfl⟩, ?_, ?_,
              List.Pairwise.of_cons inv.sorted, hdv⟩
            · intro x hx c hc
              have hx_v : x ≠ v := fun h => hx (h ▸ List.mem_cons_self _ _)
              have hx_vis : x ∉ visited := fun h => hx (List.mem_cons_of_mem _ h)
              rcases List.mem_cons.mp (inv.cover x hx_vis c hc) with heq | hmem
              · exact absurd (congrArg Prod.snd heq) hx_v
              · exact hmem
            · intro p hp
              exact inv.pqBound p (List.mem_cons_of_mem _ hp)
          obtain ⟨-, -, -, hlen⟩ :=
            relaxAll_mid hpos (adjacency g v) dist prev rest
              (fun p hp => mem_adjacency.mp hp) hmid0
          have hadj : (adjacency g v).length ≤ g.edges.length := length_adjacency_le g v
          unfold phi at hphi ⊢
          have hmul : (((universeL g start).toFinset.filter (fun x => x ∉ v :: visited)).card + 1)
              * (g.edges.length + 1)
              ≤ ((universeL g start).toFinset.filter (fun x => x ∉ visited)).card
              * (g.edges.length + 1) :=
            Nat.mul_le_mul_right _ hcard
          generalize hA : ((universeL g start).toFinset.filter (fun x => x ∉ v :: visited)).card
              * (g.edges.length + 1) = A at *
          generalize hB : ((universeL g start).toFinset.filter (fun x => x ∉ visited)).card
              * (g.edges.length + 1) = B at *
          rw [Nat.add_mul, one_mul] at hmul
          simp only [List.length_cons] at hphi
          omega

theorem initInv (g : Graph) (start endId : String) :
    Inv g start endId (fun v => if v = start then ((0 : ℚ) : WithTop ℚ) else ⊤)
      (fun _ => none) [(0, start)] [] := by
  refine ⟨?_, ?_, ?_, ?_, ?_, ?_, ?_, ?_, rfl, ?_, ?_, ?_⟩
  · intro v c hc
    by_cases hv : v = start
    · rw [if_pos hv] at hc
      have : c = 0 := by exact_mod_cast hc.symm
      rw [hv, this]
      exact Reach.refl
    · rw [if_neg hv] at hc
      exact absurd hc.symm (WithTop.coe_ne_top)
  · intro v hv
    exact absurd hv (List.not_mem_nil _)
  · intro v _ c hc
    by_cases hv : v = start
    · rw [if_pos hv] at hc
      have : c = 0 := by exact_mod_cast hc.symm
      rw [hv, this]
      exact List.mem_cons_self _ _
    · rw [if_neg hv] at hc
      exact absurd hc.symm (WithTop.coe_ne_top)
  · intro p hp
    rcases List.mem_cons.mp hp with rfl | hp
    · simp
    · exact absurd hp (List.not_mem_nil _)
  · intro u hu
    exact absurd hu (List.not_mem_nil _)
  · exact List.pairwise_singleton _ _
  · intro v u hu
    exact absurd hu (Option.noConfusion)
  · rw [if_pos rfl]
  · intro v hv hf
    rw [if_neg hv] at hf
    exact absurd rfl hf
  · exact List.not_mem_nil _
  · intro v hf
    by_cases hv : v = start
    · rw [hv]
      exact List.mem_cons_self _ _
    · rw [if_neg hv] at hf
      exact absurd rfl hf

theorem phi_init_lt (g : Graph) (start : String) :
    phi g start [(0, start)] [] < dijkstraFuel g := by
  unfold phi dijkstraFuel
  have h1 : ((universeL g start).toFinset.filter (fun x => x ∉ ([] : List String))).card
      ≤ g.edges.length + 1 := by
    calc ((universeL g start).toFinset.filter (fun x => x ∉ ([] : List String))).card
        ≤ (universeL g start).toFinset.card := Finset.card_filter_le _ _
      _ ≤ (universeL g start).length := List.toFinset_card_le _
      _ = g.edges.length + 1 := by simp [universeL]
  have h2 : ((universeL g start).toFinset.filter (fun x => x ∉ ([] : List String))).card
      * (g.edges.length + 1) ≤ (g.edges.length + 1) * (g.edges.length + 1) :=
    Nat.mul_le_mul_right _ h1
  have h3 : (g.edges.length + 1) * (g.edges.length + 1) + 2 ≤
      (g.edges.length + 2) * (g.edges.length + 2) := by nlinarith
  simp only [List.length_cons, List.length_nil]
  omega

/-- The full loop run: invariant established, fuel sufficient, postcondition out. -/
theorem dijkstra_post (g : Graph) (start endId : String) (hpos : PosWeights g) :
    ∃ dp, dijkstraLoop g endId (dijkstraFuel g)
        (fun v => if v = start then ((0 : ℚ) : WithTop ℚ) else ⊤)
        (fun _ => none) [(0, start)] [] = some dp ∧
      Post g start endId dp.1 dp.2 :=
  dijkstraLoop_runs hpos (dijkstraFuel g) _ _ _ _ (initInv g start endId)
    (phi_init_lt g start)

theorem lt_of_add_coe_le {a b : WithTop ℚ} {w : ℚ}
    (h : a + (w : WithTop ℚ) ≤ b) (hw : 0 < w) (hb : b ≠ ⊤) : a < b := by
  have ha : a ≠ ⊤ := by
    intro h1
    rw [h1, top_add] at h
    exact hb (top_le_iff.mp h)
  obtain ⟨qa, hqa⟩ := WithTop.ne_top_iff_exists.mp ha
  obtain ⟨qb, hqb⟩ := WithTop.ne_top_iff_exists.mp hb
  rw [← hqa, ← hqb] at h ⊢
  rw [← WithTop.coe_add] at h
  rw [WithTop.coe_lt_coe]
  have : qa + w ≤ qb := by exact_mod_cast h
  linarith

/-- Reconstruction of the path from the predecessor map: the loop of
`while current is not None`.  The produced list runs from the queried vertex
back to the start, following predecessor links. -/
theorem buildPath_spec {g : Graph} {start endId : String}
    {dist : String → WithTop ℚ} {prev : String → Option String}
    (hpos : PosWeights g) (post : Post g start endId dist prev) :
    ∀ (fuel : ℕ) (cur : String), dist cur ≠ ⊤ →
      ((universeL g start).toFinset.filter (fun x => dist x < dist cur)).card < fuel →
      ∃ tl, buildPath fuel prev cur = cur :: tl ∧
        (cur :: tl).getLast? = some start ∧
        List.Chain' (fun a b => prev a = some b) (cur :: tl) := by
  intro fuel
  induction fuel with
  | zero =>
    intro cur _ hm
    exact absurd hm (Nat.not_lt_zero _)
  | succ fuel ih =>
    intro cur hfin hm
    match hprev : prev cur with
    | none =>
      have hcur : cur = start := by
        by_contra hne
        exact post.hasPrev cur hne hfin hprev
      refine ⟨[], ?_, ?_, ?_⟩
      · simp [buildPath, hprev]
      · rw [hcur]
        rfl
      · exact List.chain'_singleton _
    | some u =>
      obtain ⟨e, he, hef, het, hle, hbne⟩ := post.prevInv cur u hprev
      have hufin : dist u ≠ ⊤ := by
        intro h1
        rw [h1, top_add] at hle
        exact hbne (top_le_iff.mp hle)
      have hlt : dist u < dist cur := lt_of_add_coe_le hle (hpos e he) hbne
      have hcard : ((universeL g start).toFinset.filter (fun x => dist x < dist u)).card
          < ((universeL g start).toFinset.filter (fun x => dist x < dist cur)).card := by
        refine Finset.card_lt_card ?_
        rw [Finset.ssubset_iff_of_subset]
        · refine ⟨u, ?_, ?_⟩
          · rw [Finset.mem_filter]
            exact ⟨List.mem_toFinset.mpr (post.distUniv u hufin), hlt⟩
          · rw [Finset.mem_filter]
            rintro ⟨-, h⟩
            exact absurd h (lt_irrefl _)
        · intro x hx
          rw [Finset.mem_filter] at hx ⊢
          exact ⟨hx.1, lt_trans hx.2 hlt⟩
      obtain ⟨tl, htl, hlast, hchain⟩ := ih u hufin (by omega)
      refine ⟨u :: tl, ?_, ?_, ?_⟩
      · simp only [buildPath, hprev, htl]
      · rw [List.getLast?_cons_cons]
        exact hlast
      · rw [List.chain'_cons]
        exact ⟨hprev, hchain⟩

theorem buildPath_succ (n : ℕ) (prev : String → Option String) (cur : String) :
    buildPath (n + 1) prev cur =
      cur :: (match prev cur with
              | none => []
              | some u => buildPath n prev u) := rfl

theorem lookupVertex_spec {g : Graph} {s : String} (hs : s ∈ vertexIds g) :
    (lookupVertex g s).id = s ∧ lookupVertex g s ∈ g.vertices := by
  unfold lookupVertex
  obtain ⟨v, hv, hvid⟩ := List.mem_map.mp hs
  have hrev : v ∈ g.vertices.reverse := List.mem_reverse.mpr hv
  have hsome : (g.vertices.reverse.find? (fun x => x.id == s)).isSome := by
    rw [List.find?_isSome]
    exact ⟨v, hrev, by simp [hvid]⟩
  obtain ⟨w, hw⟩ := Option.isSome_iff_exists.mp hsome
  rw [hw]
  simp only [Option.getD_some]
  constructor
  · have := List.find?_some hw
    simpa using this
  · exact List.mem_reverse.mp (List.mem_of_find?_eq_some hw)

theorem find_missing_start {g : Graph} {s t : String} (hs : s ∉ vertexIds g) :
    find_shortest_path g s t =
      ⟨[], [], ⊤, false, "Start vertex " ++ s ++ " not found in graph"⟩ := by
  unfold find_shortest_path
  rw [if_pos hs]

theorem find_missing_end {g : Graph} {s t : String} (hs : s ∈ vertexIds g)
    (ht : t ∉ vertexIds g) :
    find_shortest_path g s t =
      ⟨[], [], ⊤, false, "End vertex " ++ t ++ " not found in graph"⟩ := by
  unfold find_shortest_path
  rw [if_neg (not_not_intro hs), if_pos ht]

theorem find_no_path {g : Graph} {s t : String} (hpos : PosWeights g)
    (hs : s ∈ vertexIds g) (ht : t ∈ vertexIds g)
    (hnex : ¬ ∃ c : ℚ, Reach g s t c) :
    find_shortest_path g s t =
      ⟨[], [], ⊤, false, "No path found between " ++ s ++ " and " ++ t⟩ := by
  obtain ⟨dp, hloop, hpost⟩ := dijkstra_post g s t hpos
  obtain ⟨dist, prev⟩ := dp
  have post : Post g s t dist prev := hpost
  have hfin : dist t = ⊤ := by
    by_contra h
    obtain ⟨c, hc⟩ := WithTop.ne_top_iff_exists.mp h
    exact hnex ⟨c, post.sound t c hc.symm⟩
  unfold find_shortest_path
  rw [if_neg (not_not_intro hs), if_neg (not_not_intro ht)]
  simp only [hloop]
  rw [if_pos hfin]

theorem find_success {g : Graph} {s t : String} (hpos : PosWeights g)
    (hs : s ∈ vertexIds g) (ht : t ∈ vertexIds g) (hex : ∃ c : ℚ, Reach g s t c) :
    (find_shortest_path g s t).success = true ∧
    (∃ c₀ : ℚ, (find_shortest_path g s t).total_distance = (c₀ : WithTop ℚ) ∧
      Reach g s t c₀ ∧ ∀ c : ℚ, Reach g s t c → c₀ ≤ c) ∧
    (find_shortest_path g s t).path.head? = some s ∧
    (find_shortest_path g s t).path.getLast? = some t ∧
    List.Chain' (fun a b => ∃ e ∈ g.edges, e.from_vertex = a ∧ e.to_vertex = b)
      (find_shortest_path g s t).path ∧
    (find_shortest_path g s t).vertices =
      (find_shortest_path g s t).path.map (lookupVertex g) := by
  obtain ⟨dp, hloop, hpost⟩ := dijkstra_post g s t hpos
  obtain ⟨dist, prev⟩ := dp
  have post : Post g s t dist prev := hpost
  obtain ⟨c, hc⟩ := hex
  have hfin : dist t ≠ ⊤ := ne_top_of_le_ne_top WithTop.coe_ne_top (post.minEnd c hc)
  have hmlt : ((universeL g s).toFinset.filter (fun x => dist x < dist t)).card
      < g.edges.length + 2 := by
    calc ((universeL g s).toFinset.filter (fun x => dist x < dist t)).card
        ≤ (universeL g s).toFinset.card := Finset.card_filter_le _ _
      _ ≤ (universeL g s).length := List.toFinset_card_le _
      _ = g.edges.length + 1 := by simp [universeL]
      _ < g.edges.length + 2 := by omega
  obtain ⟨tl, htl, hlast, hchain⟩ := buildPath_spec hpos post (g.edges.length + 2) t hfin hmlt
  have heq : find_shortest_path g s t =
      ⟨(buildPath (g.edges.length + 2) prev t).reverse,
       ((buildPath (g.edges.length + 2) prev t).reverse).map (lookupVertex g),
       dist t, true,
       "Found shortest path with distance " ++ distToString (dist t)⟩ := by
    unfold find_shortest_path
    rw [if_neg (not_not_intro hs), if_neg (not_not_intro ht)]
    simp only [hloop]
    rw [if_neg hfin]
  rw [heq]
  refine ⟨rfl, ?_, ?_, ?_, ?_, rfl⟩
  · obtain ⟨c₀, hc₀⟩ := WithTop.ne_top_iff_exists.mp hfin
    refine ⟨c₀, hc₀.symm, post.sound t c₀ hc₀.symm, ?_⟩
    intro c1 hc1
    have := post.minEnd c1 hc1
    rw [← hc₀] at this
    exact_mod_cast this
  · rw [htl, List.head?_reverse]
    exact hlast
  · rw [htl, List.getLast?_reverse]
    rfl
  · rw [htl]
    rw [List.chain'_reverse]
    refine List.Chain'.imp ?_ hchain
    intro a b hab
    obtain ⟨e, he, hef, het, -, -⟩ := post.prevInv a b hab
    exact ⟨e, he, hef, het⟩

theorem append_ne_empty_left {a b : String} (ha : 0 < a.length) : a ++ b ≠ "" := by
  intro h
  have hlen := congrArg String.length h
  rw [String.length_append] at hlen
  have h0 : ("" : String).length = 0 := rfl
  omega

theorem append_ne_empty_right {a b : String} (hb : 0 < b.length) : a ++ b ≠ "" := by
  intro h
  have hlen := congrArg String.length h
  rw [String.length_append] at hlen
  have h0 : ("" : String).length = 0 := rfl
  omega

/-- Claim C1: on a positive-weight graph containing both endpoints, with the
target reachable from the start, `find_shortest_path` succeeds with
`total_distance` equal to the minimum total edge weight over all start-to-end
paths and with `path` a start-to-end vertex sequence following existing edges;
on the example graph A-F, solving A to F yields path A,B,C,F of distance 4. -/
theorem C1_solve_minimal :
    (∀ (g : Graph) (start_id end_id : String),
      PosWeights g → Closed g →
      start_id ∈ vertexIds g → end_id ∈ vertexIds g →
      (∃ c : ℚ, Reach g start_id end_id c) →
      (find_shortest_path g start_id end_id).success = true ∧
      (∃ c₀ : ℚ,
        (find_shortest_path g start_id end_id).total_distance = (c₀ : WithTop ℚ) ∧
        Reach g start_id end_id c₀ ∧
        ∀ c : ℚ, Reach g start_id end_id c → c₀ ≤ c) ∧
      (find_shortest_path g start_id end_id).path.head? = some start_id ∧
      (find_shortest_path g start_id end_id).path.getLast? = some end_id ∧
      List.Chain' (fun a b => ∃ e ∈ g.edges, e.from_vertex = a ∧ e.to_vertex = b)
        (find_shortest_path g start_id end_id).path) ∧
    (find_shortest_path exampleGraph "A" "F").path = ["A", "B", "C", "F"] ∧
    (find_shortest_path exampleGraph "A" "F").total_distance = ((4 : ℚ) : WithTop ℚ) ∧
    (find_shortest_path exampleGraph "A" "F").success = true := by
  refine ⟨?_, ?_, ?_, ?_⟩
  · intro g s t hpos hcl hs ht hex
    obtain ⟨h1, h2, h3, h4, h5, -⟩ := find_success hpos hs ht hex
    exact ⟨h1, h2, h3, h4, h5⟩
  · with_unfolding_all rfl
  · with_unfolding_all rfl
  · with_unfolding_all rfl

/-- Witness for C1: the general part applied to the example graph. -/
theorem C1_solve_minimal_witness :
    (find_shortest_path exampleGraph "A" "F").success = true :=
  (C1_solve_minimal.1 exampleGraph "A" "F"
    (by unfold PosWeights; decide)
    (by unfold Closed vertexIds; decide)
    (by decide) (by decide)
    ⟨0 + 1 + 2 + 1,
      Reach.tail ⟨"C", "F", 1⟩
        (Reach.tail ⟨"B", "C", 2⟩
          (Reach.tail ⟨"A", "B", 1⟩ Reach.refl (by decide) rfl)
          (by decide) rfl)
        (by decide) rfl⟩).1

/-- Claim C2: `find_shortest_path` fails exactly when the start vertex is
missing, the end vertex is missing, or no path exists; failures carry empty
path and vertex data and a (branch-specific, hence pairwise distinct) message,
and a success never has an empty path. -/
theorem C2_failure_iff :
    ∀ (g : Graph) (s t : String), PosWeights g → Closed g →
      ((find_shortest_path g s t).success = false ↔
        (s ∉ vertexIds g ∨ t ∉ vertexIds g ∨ ¬ ∃ c : ℚ, Reach g s t c)) ∧
      ((find_shortest_path g s t).success = false →
        (find_shortest_path g s t).path = [] ∧
        (find_shortest_path g s t).vertices = [] ∧
        (find_shortest_path g s t).message ≠ "") ∧
      ((find_shortest_path g s t).success = true → (find_shortest_path g s t).path ≠ []) ∧
      (s ∉ vertexIds g →
        (find_shortest_path g s t).message = "Start vertex " ++ s ++ " not found in graph") ∧
      (s ∈ vertexIds g → t ∉ vertexIds g →
        (find_shortest_path g s t).message = "End vertex " ++ t ++ " not found in graph") ∧
      (s ∈ vertexIds g → t ∈ vertexIds g → ¬ (∃ c : ℚ, Reach g s t c) →
        (find_shortest_path g s t).message = "No path found between " ++ s ++ " and " ++ t) := by
  intro g s t hpos hcl
  by_cases hs : s ∈ vertexIds g
  · by_cases ht : t ∈ vertexIds g
    · by_cases hex : ∃ c : ℚ, Reach g s t c
      · obtain ⟨h1, -, hhead, -, -, -⟩ := find_success hpos hs ht hex
        refine ⟨?_, ?_, ?_, ?_, ?_, ?_⟩
        · constructor
          · intro habs
            rw [h1] at habs
            exact absurd habs (by simp)
          · rintro (h | h | h)
            · exact absurd hs h
            · exact absurd ht h
            · exact absurd hex h
        · intro habs
          rw [h1] at habs
          exact absurd habs (by simp)
        · intro _ hnil
          rw [hnil] at hhead
          exact absurd hhead (by simp)
        · intro h
          exact absurd hs h
        · intro _ h
          exact absurd ht h
        · intro _ _ h
          exact absurd hex h
      · have heq := find_no_path hpos hs ht hex
        rw [heq]
        refine ⟨?_, ?_, ?_, ?_, ?_, ?_⟩
        · exact ⟨fun _ => Or.inr (Or.inr hex), fun _ => rfl⟩
        · refine fun _ => ⟨rfl, rfl, append_ne_empty_left ?_⟩
          rw [String.length_append]
          have h5 : (" and ").length = 5 := rfl
          omega
        · intro habs
          exact absurd habs (by simp)
        · intro h
          exact absurd hs h
        · intro _ h
          exact absurd ht h
        · intro _ _ _
          rfl
    · have heq := find_missing_end hs ht
      rw [heq]
      refine ⟨?_, ?_, ?_, ?_, ?_, ?_⟩
      · exact ⟨fun _ => Or.inr (Or.inl ht), fun _ => rfl⟩
      · exact fun _ => ⟨rfl, rfl, append_ne_empty_right (by decide)⟩
      · intro habs
        exact absurd habs (by simp)
      · intro h
        exact absurd hs h
      · intro _ _
        rfl
      · intro _ htmem _
        exact absurd htmem ht
  · have heq := find_missing_start (t := t) hs
    rw [heq]
    refine ⟨?_, ?_, ?_, ?_, ?_, ?_⟩
    · exact ⟨fun _ => Or.inl hs, fun _ => rfl⟩
    · exact fun _ => ⟨rfl, rfl, append_ne_empty_right (by decide)⟩
    · intro habs
      exact absurd habs (by simp)
    · intro _
      rfl
    · intro hmem
      exact absurd hmem hs
    · intro hmem _ _
      exact absurd hmem hs

/-- Witness for C2 at a concrete missing-start input. -/
theorem C2_failure_iff_witness :
    (find_shortest_path exampleGraph "Z" "F").message =
      "Start vertex " ++ "Z" ++ " not found in graph" :=
  (C2_failure_iff exampleGraph "Z" "F"
    (by unfold PosWeights; decide)
    (by unfold Closed vertexIds; decide)).2.2.2.1 (by decide)

/-- Claim C10: querying a path from a vertex to itself succeeds with the
one-element path, that vertex alone, and total distance zero. -/
theorem C10_same_start_end :
    ∀ (g : Graph) (start_id : String), Closed g → start_id ∈ vertexIds g →
      (find_shortest_path g start_id start_id).success = true ∧
      (find_shortest_path g start_id start_id).path = [start_id] ∧
      (find_shortest_path g start_id start_id).total_distance = ((0 : ℚ) : WithTop ℚ) ∧
      ∃ v, (find_shortest_path g start_id start_id).vertices = [v] ∧
        v.id = start_id ∧ v ∈ g.vertices := by
  intro g s hcl hs
  have hpos0 : 0 < dijkstraFuel g := by
    unfold dijkstraFuel
    positivity
  have hk : dijkstraFuel g = Nat.pred (dijkstraFuel g) + 1 :=
    (Nat.succ_pred_eq_of_pos hpos0).symm
  have hloop : dijkstraLoop g s (dijkstraFuel g)
      (fun v => if v = s then ((0 : ℚ) : WithTop ℚ) else ⊤)
      (fun _ => none) [(0, s)] [] =
      some ((fun v => if v = s then ((0 : ℚ) : WithTop ℚ) else ⊤), (fun _ => none)) := by
    rw [hk, dijkstraLoop_succ, if_neg (List.not_mem_nil s), if_pos rfl]
  have h0 : (if s = s then ((0 : ℚ) : WithTop ℚ) else ⊤) = ((0 : ℚ) : WithTop ℚ) :=
    if_pos rfl
  have hbp : buildPath (g.edges.length + 2) (fun _ => none) s = [s] := by
    rw [show g.edges.length + 2 = (g.edges.length + 1) + 1 from rfl, buildPath_succ]
  have heq : find_shortest_path g s s =
      ⟨[s], [lookupVertex g s], ((0 : ℚ) : WithTop ℚ), true,
       "Found shortest path with distance " ++ distToString ((0 : ℚ) : WithTop ℚ)⟩ := by
    unfold find_shortest_path
    rw [if_neg (not_not_intro hs), if_neg (not_not_intro hs)]
    simp only [hloop, h0, WithTop.coe_ne_top, if_false, hbp]
    rfl
  rw [heq]
  obtain ⟨hid, hmem⟩ := lookupVertex_spec hs
  exact ⟨rfl, rfl, rfl, lookupVertex g s, rfl, hid, hmem⟩

/-- Witness for C10 at the example graph. -/
theorem C10_same_start_end_witness :
    (find_shortest_path exampleGraph "A" "A").path = ["A"] :=
  (C10_same_start_end exampleGraph "A"
    (by unfold Closed vertexIds; decide) (by decide)).2.1

end GraphApi

namespace TrafficApi

theorem clamp01_mem (x : ℚ) : 0 ≤ clamp01 x ∧ clamp01 x ≤ 1 := by
  unfold clamp01
  constructor
  · exact le_max_left 0 _
  · exact max_le (by norm_num) (min_le_left 1 x)

theorem grt_mem (cfg : TConfig) (r : ℚ) :
    0 ≤ generate_random_traffic cfg r ∧ generate_random_traffic cfg r ≤ 1 :=
  clamp01_mem _

theorem bump_mem {w x : ℚ} (hw0 : 0 ≤ w) (hx : 0 ≤ x) :
    0 ≤ min 1 (w + x) ∧ min 1 (w + x) ≤ 1 := by
  constructor
  · exact le_min (by norm_num) (by linarith)
  · exact min_le_left 1 _

theorem mem_mapIdxFrom_of_forall {f : ℕ → α → α} {P : α → Prop}
    (hf : ∀ i a, P a → P (f i a)) :
    ∀ (k : ℕ) (l : List α), (∀ a ∈ l, P a) → ∀ b ∈ mapIdxFrom f k l, P b := by
  intro k l
  induction l generalizing k with
  | nil =>
    intro _ b hb
    exact absurd hb (List.not_mem_nil _)
  | cons a t ih =>
    intro hl b hb
    rcases List.mem_cons.mp hb with rfl | hb
    · exact hf k a (hl a (List.mem_cons_self _ _))
    · exact ih (k + 1) (fun x hx => hl x (List.mem_cons_of_mem _ hx)) b hb

theorem mem_mapWithIdx_of_forall {f : ℕ → α → α} {P : α → Prop}
    (hf : ∀ i a, P a → P (f i a)) (l : List α) (hl : ∀ a ∈ l, P a) :
    ∀ b ∈ mapWithIdx f l, P b :=
  mem_mapIdxFrom_of_forall hf 0 l hl

theorem get?_mapIdxFrom (f : ℕ → α → α) :
    ∀ (k i : ℕ) (l : List α), (mapIdxFrom f k l).get? i = (l.get? i).map (f (k + i)) := by
  intro k i l
  induction l generalizing k i with
  | nil => simp [mapIdxFrom]
  | cons a t ih =>
    cases i with
    | zero => simp [mapIdxFrom]
    | succ n =>
      simp only [mapIdxFrom, List.get?_cons_succ, ih (k + 1) n]
      have harith : k + 1 + n = k + (n + 1) := by omega
      rw [harith]

theorem get?_mapWithIdx (f : ℕ → α → α) (i : ℕ) (l : List α) :
    (mapWithIdx f l).get? i = (l.get? i).map (f i) := by
  unfold mapWithIdx
  rw [get?_mapIdxFrom, Nat.zero_add]

theorem length_mapIdxFrom (f : ℕ → α → α) :
    ∀ (k : ℕ) (l : List α), (mapIdxFrom f k l).length = l.length := by
  intro k l
  induction l generalizing k with
  | nil => rfl
  | cons a t ih => simp [mapIdxFrom, ih]

theorem findIdxEdge_spec {edge_id : String} :
    ∀ {es : List TEdge} {idx : ℕ} {e : TEdge},
      findIdxEdge edge_id es = some (idx, e) → es.get? idx = some e ∧ e.id = edge_id := by
  intro es
  induction es with
  | nil =>
    intro idx e h
    exact absurd h (by simp [findIdxEdge])
  | cons a t ih =>
    intro idx e h
    unfold findIdxEdge at h
    by_cases ha : a.id = edge_id
    · rw [if_pos ha] at h
      obtain ⟨h1, h2⟩ := Prod.mk.injEq .. ▸ Option.some_injective _ h
      rw [← h1, ← h2]
      exact ⟨rfl, ha⟩
    · rw [if_neg ha] at h
      rcases ho : findIdxEdge edge_id t with - | p
      · rw [ho] at h
        simp only [Option.map_none'] at h
        exact absurd h (by simp)
      · rw [ho] at h
        simp only [Option.map_some'] at h
        obtain ⟨h1, h2⟩ := Prod.mk.injEq .. ▸ Option.some_injective _ h
        obtain ⟨hg, hid⟩ := ih ho
        rw [← h1, ← h2]
        exact ⟨by simpa using hg, hid⟩

theorem findIdxEdge_mapIdxFrom {f : ℕ → TEdge → TEdge}
    (hf : ∀ i e, (f i e).id = e.id) (edge_id : String) :
    ∀ (k : ℕ) (es : List TEdge),
      findIdxEdge edge_id (mapIdxFrom f k es) =
        (findIdxEdge edge_id es).map (fun p => (p.1, f (k + p.1) p.2)) := by
  intro k es
  induction es generalizing k with
  | nil => simp [findIdxEdge, mapIdxFrom]
  | cons a t ih =>
    simp only [mapIdxFrom, findIdxEdge, hf k a]
    by_cases ha : a.id = edge_id
    · simp [if_pos ha]
    · simp only [if_neg ha, ih (k + 1)]
      rcases ho : findIdxEdge edge_id t with - | p
      · simp [ho]
      · simp only [ho, Option.map_some']
        have harith : k + 1 + p.1 = k + (p.1 + 1) := by omega
        simp [harith]

theorem findIdxEdge_mapWithIdx {f : ℕ → TEdge → TEdge}
    (hf : ∀ i e, (f i e).id = e.id) (edge_id : String) (es : List TEdge) :
    findIdxEdge edge_id (mapWithIdx f es) =
      (findIdxEdge edge_id es).map (fun p => (p.1, f p.1 p.2)) := by
  unfold mapWithIdx
  rw [findIdxEdge_mapIdxFrom hf]
  rcases findIdxEdge edge_id es with - | p <;> simp

theorem mk_init_edge_fresh (cfg : TConfig) (n : ℕ) (a : TVertex) (bid : String)
    (r : ℚ) (vc : ℤ) : FreshEdge (mk_init_edge cfg n a bid r vc) :=
  ⟨grt_mem cfg r, rfl⟩

theorem wire_inner_fresh (cfg : TConfig) (draws : InitDraws) (vs : List TVertex)
    (a : TVertex) (i : ℕ) :
    ∀ (ks : List ℕ) (acc : List TEdge × List (ℕ × ℕ)),
      (∀ e ∈ acc.1, FreshEdge e) →
      ∀ e ∈ ((ks.foldl (fun acc2 k =>
        match (neighbor_order vs a i).get? k with
        | none => acc2
        | some (j, _) =>
          match vs.get? j with
          | none => acc2
          | some b =>
            if (min i j, max i j) ∉ acc2.2 ∧
                draws.density i k < cfg.road_density + 1/2 then
              (acc2.1 ++ [mk_init_edge cfg acc2.1.length a b.id
                  (draws.traffic i k) (draws.vehicle i k)],
               (min i j, max i j) :: acc2.2)
            else acc2) acc).1), FreshEdge e := by
  intro ks
  induction ks with
  | nil =>
    intro acc hacc
    exact hacc
  | cons k ks ih =>
    intro acc hacc
    rw [List.foldl_cons]
    apply ih
    rcases hno : (neighbor_order vs a i).get? k with - | p
    · simp only [hno]
      exact hacc
    · obtain ⟨j, d⟩ := p
      rcases hvj : vs.get? j with - | b
      · simp only [hno, hvj]
        exact hacc
      · by_cases hcond : (min i j, max i j) ∉ acc.2 ∧
            draws.density i k < cfg.road_density + 1/2
        · simp only [hno, hvj, if_pos hcond]
          intro e he
          rcases List.mem_append.mp he with he | he
          · exact hacc e he
          · rcases List.mem_singleton.mp he with rfl
            exact mk_init_edge_fresh ..
        · simp only [hno, hvj, if_neg hcond]
          exact hacc

theorem wire_fresh (cfg : TConfig) (draws : InitDraws) (vs : List TVertex) :
    ∀ (idxs : List ℕ) (acc : List TEdge × List (ℕ × ℕ)),
      (∀ e ∈ acc.1, FreshEdge e) →
      ∀ e ∈ ((idxs.foldl (wire_vertex cfg draws vs) acc).1), FreshEdge e := by
  intro idxs
  induction idxs with
  | nil =>
    intro acc hacc
    exact hacc
  | cons i idxs ih =>
    intro acc hacc
    rw [List.foldl_cons]
    apply ih
    unfold wire_vertex
    rcases hvi : vs.get? i with - | a
    · simp only [hvi]
      exact hacc
    · simp only [hvi]
      exact wire_inner_fresh cfg draws vs a i _ acc hacc

theorem ensure_connectivity_fresh (cfg : TConfig) (draws : InitDraws)
    (vs : List TVertex) (edges0 : List TEdge) (h0 : ∀ e ∈ edges0, FreshEdge e) :
    ∀ e ∈ ensure_connectivity cfg draws vs edges0, FreshEdge e := by
  unfold ensure_connectivity
  have main : ∀ (idxs : List ℕ) (acc : List TEdge × List String),
      (∀ e ∈ acc.1, FreshEdge e) →
      ∀ e ∈ ((idxs.foldl (fun acc idx =>
        match vs.get? idx with
        | none => acc
        | some v =>
          if v.id ∈ acc.2 then acc
          else
            match nearest_connected vs acc.2 v with
            | none => acc
            | some u =>
              (acc.1 ++ [⟨"edge_" ++ toString acc.1.length, v.id, u.id,
                  generate_random_traffic cfg (draws.connTraffic idx),
                  calculate_speed (generate_random_traffic cfg (draws.connTraffic idx)),
                  draws.connVehicle idx, false, 0, true⟩],
               v.id :: acc.2)) acc).1), FreshEdge e := by
    intro idxs
    induction idxs with
    | nil =>
      intro acc hacc
      exact hacc
    | cons i idxs ih =>
      intro acc hacc
      rw [List.foldl_cons]
      apply ih
      rcases hvi : vs.get? i with - | v
      · simp only [hvi]
        exact hacc
      · by_cases hin : v.id ∈ acc.2
        · simp only [hvi, if_pos hin]
          exact hacc
        · rcases hnear : nearest_connected vs acc.2 v with - | u
          · simp only [hvi, if_neg hin, hnear]
            exact hacc
          · simp only [hvi, if_neg hin, hnear]
            intro e he
            rcases List.mem_append.mp he with he | he
            · exact hacc e he
            · rcases List.mem_singleton.mp he with rfl
              exact ⟨grt_mem _ _, rfl⟩
  exact main _ _ h0

theorem init_edges_fresh (cfg : TConfig) (draws : InitDraws) :
    ∀ e ∈ (initialize_graph cfg draws).2, FreshEdge e := by
  unfold initialize_graph
  refine ensure_connectivity_fresh cfg draws _ _ ?_
  exact wire_fresh cfg draws _ _ ([], []) (fun e he => absurd he (List.not_mem_nil _))

theorem apply_incident_effect_ok {es : List TEdge} {edge_id : String} {s : ℚ}
    (hs : 0 ≤ s) (h : EdgesOk es) : EdgesOk (apply_incident_effect es edge_id s) := by
  unfold apply_incident_effect
  rcases hf : findIdxEdge edge_id es with - | p
  · simp only [hf]
    exact h
  · obtain ⟨idx, target⟩ := p
    simp only [hf]
    refine mem_mapWithIdx_of_forall ?_ es h
    intro i e he
    by_cases hi : i = idx
    · rw [if_pos hi]
      exact bump_mem he.1 (mul_nonneg hs (by norm_num))
    · rw [if_neg hi]
      by_cases hadj : e.id ≠ target.id ∧ adjacentTo target e
      · rw [if_pos hadj]
        exact bump_mem he.1 (mul_nonneg hs (by norm_num))
      · rw [if_neg hadj]
        exact he

theorem create_incident_shape {es : List TEdge} {incs : List TIncident}
    {now : ℤ} {suf t1 t2 eid : String} {sev dur : ℚ} {ity : Option String}
    {inc : TIncident} {es2 : List TEdge} {incs2 : List TIncident}
    (hc : create_incident es incs now suf t1 t2 eid sev dur ity =
      Except.ok (inc, es2, incs2)) :
    (∃ idx target, findIdxEdge eid es = some (idx, target) ∧ target.isIncident = false ∧
      es2 = apply_incident_effect
        (mapWithIdx (fun i e =>
          if i = idx then
            { e with isIncident := true, incidentSeverity := clamp01 sev }
          else e) es) eid (clamp01 sev)) ∧
    incs2 = incs ++ [inc] := by
  unfold create_incident at hc
  rcases hf : findIdxEdge eid es with - | p
  · simp only [hf] at hc
    exact absurd hc (by simp)
  · obtain ⟨idx, target⟩ := p
    simp only [hf] at hc
    by_cases hinc : target.isIncident
    · rw [if_pos hinc] at hc
      exact absurd hc (by simp)
    · rw [if_neg hinc] at hc
      simp only [Except.ok.injEq, Prod.mk.injEq] at hc
      obtain ⟨h1, h2, h3⟩ := hc
      refine ⟨⟨idx, target, rfl, by simpa using hinc, h2.symm⟩, ?_⟩
      rw [← h3, ← h1]

theorem create_incident_edges_ok {es : List TEdge} {incs : List TIncident}
    {now : ℤ} {suf t1 t2 eid : String} {sev dur : ℚ} {ity : Option String}
    {inc : TIncident} {es2 : List TEdge} {incs2 : List TIncident}
    (h : EdgesOk es)
    (hc : create_incident es incs now suf t1 t2 eid sev dur ity =
      Except.ok (inc, es2, incs2)) : EdgesOk es2 := by
  obtain ⟨⟨idx, target, -, -, hes2⟩, -⟩ := create_incident_shape hc
  rw [hes2]
  refine apply_incident_effect_ok (clamp01_mem sev).1 ?_
  refine mem_mapWithIdx_of_forall ?_ es h
  intro i e he
  by_cases hi : i = idx
  · rw [if_pos hi]
    exact he
  · rw [if_neg hi]
    exact he

theorem clear_edge_flags_ok {es : List TEdge} {eid : String} (h : EdgesOk es) :
    EdgesOk (clear_edge_flags es eid) := by
  unfold clear_edge_flags
  rcases hf : findIdxEdge eid es with - | p
  · simp only [hf]
    exact h
  · obtain ⟨idx, target⟩ := p
    simp only [hf]
    refine mem_mapWithIdx_of_forall ?_ es h
    intro i e he
    by_cases hi : i = idx
    · rw [if_pos hi]
      exact he
    · rw [if_neg hi]
      exact he

theorem update_edge_at_ok {cfg : TConfig} {mult : ℚ} {dr : EdgeDraws}
    {es : List TEdge} {incs : List TIncident} {i : ℕ} (h : EdgesOk es) :
    EdgesOk (update_edge_at cfg mult dr es incs i).1 := by
  unfold update_edge_at
  rcases hg : es.get? i with - | e
  · simp only [hg]
    exact h
  · simp only [hg]
    have h2 : EdgesOk (es.set i
        { e with
          weight := clamp01
            ((e.weight * (17/20) + get_average_neighbor_traffic cfg es e * (1/20)
                + (dr.rChange - 1/2) * (1/5)
              + (if dr.rAdjProb < 1/20 then (dr.rAdj - 1/2) * (3/20) else 0)) * mult),
          speed := calculate_speed (clamp01
            ((e.weight * (17/20) + get_average_neighbor_traffic cfg es e * (1/20)
                + (dr.rChange - 1/2) * (1/5)
              + (if dr.rAdjProb < 1/20 then (dr.rAdj - 1/2) * (3/20) else 0)) * mult)),
          vehicleCount := max 0 (⌊(clamp01
            ((e.weight * (17/20) + get_average_neighbor_traffic cfg es e * (1/20)
                + (dr.rChange - 1/2) * (1/5)
              + (if dr.rAdjProb < 1/20 then (dr.rAdj - 1/2) * (3/20) else 0)) * mult)) * 100⌋
            + dr.rVehicle) }) := by
      intro x hx
      rcases List.mem_or_eq_of_mem_set hx with hx | rfl
      · exact h x hx
      · exact clamp01_mem _
    by_cases hcond : ¬ e.isIncident ∧ dr.rIncProb < cfg.incident_probability
    · rw [if_pos hcond]
      rcases hcr : create_incident (es.set i _) incs dr.incNow dr.incSuffix
          dr.incType1 dr.incType2 e.id (dr.rSev * (1/2) + 3/10)
          (30000 + dr.rDur * 60000) none with m | p
      · simp only [hcr]
        exact h2
      · obtain ⟨inc, es3, incs3⟩ := p
        simp only [hcr]
        exact create_incident_edges_ok h2 hcr
    · rw [if_neg hcond]
      exact h2

theorem tick_fold_ok {cfg : TConfig} {mult : ℚ} {draws : ℕ → EdgeDraws} :
    ∀ (idxs : List ℕ) (acc : List TEdge × List TIncident), EdgesOk acc.1 →
      EdgesOk ((idxs.foldl
        (fun acc i => update_edge_at cfg mult (draws i) acc.1 acc.2 i) acc).1) := by
  intro idxs
  induction idxs with
  | nil =>
    intro acc h
    exact h
  | cons i idxs ih =>
    intro acc h
    rw [List.foldl_cons]
    exact ih _ (update_edge_at_ok h)

theorem fold_clear_ok :
    ∀ (L : List TIncident) (es : List TEdge), EdgesOk es →
      EdgesOk (L.foldl (fun es2 i => clear_edge_flags es2 i.edgeId) es) := by
  intro L
  induction L with
  | nil =>
    intro es h
    exact h
  | cons a t ih =>
    intro es h
    rw [List.foldl_cons]
    exact ih _ (clear_edge_flags_ok h)

theorem update_traffic_ok {st : GenState} {hour : ℤ} {draws : ℕ → EdgeDraws}
    {now2 : ℤ} (h : EdgesOk st.edges) :
    EdgesOk (update_traffic st hour draws now2).edges := by
  unfold update_traffic update_incidents
  exact fold_clear_ok _ _ (tick_fold_ok _ _ h)

theorem update_config_ok {st : GenState} {nc : Option ℕ} {rd : Option ℚ}
    {ui bt tv ip : Option ℚ} {draws : InitDraws} (h : EdgesOk st.edges) :
    EdgesOk (update_config st nc rd ui bt tv ip draws).edges := by
  unfold update_config
  by_cases hr : needs_reinit st.config nc rd
  · simp only [hr, if_true]
    intro e he
    exact (init_edges_fresh _ _ e he).1
  · simp only [hr, if_false]
    exact h

theorem apply_op_ok {st : GenState} (h : EdgesOk st.edges) (op : Op) :
    EdgesOk ((apply_op st op).edges) := by
  cases op with
  | tick hh d n => exact update_traffic_ok h
  | createInc now suf t1 t2 eid sev dur ity =>
    simp only [apply_op]
    rcases hcr : create_incident st.edges st.incidents now suf t1 t2 eid sev dur ity
      with m | p
    · simp only [hcr]
      exact h
    · obtain ⟨inc, es3, incs3⟩ := p
      simp only [hcr]
      exact create_incident_edges_ok h hcr
  | clearInc iid =>
    simp only [apply_op]
    unfold clear_incident
    rcases hfi : st.incidents.find? (fun i => i.id == iid) with - | incident
    · simp only [hfi]
      exact h
    · simp only [hfi]
      exact clear_edge_flags_ok h
  | updateConfig nc rd ui bt tv ip draws => exact update_config_ok h

/-- Claim C3: edge weights lie in the unit interval initially and after every
sequence of ticks, incident creations, incident clears, and configuration
updates (including graph regenerations), for every sequence of oracle draws. -/
theorem C3_weights_bounded :
    ∀ (cfg : TConfig) (draws : InitDraws) (ops : List Op),
      ∀ e ∈ (ops.foldl apply_op (init_state cfg draws)).edges,
        0 ≤ e.weight ∧ e.weight ≤ 1 := by
  intro cfg draws ops
  have hinit : EdgesOk (init_state cfg draws).edges := by
    intro e he
    exact (init_edges_fresh cfg draws e he).1
  have main : ∀ (l : List Op) (st : GenState), EdgesOk st.edges →
      EdgesOk ((l.foldl apply_op st).edges) := by
    intro l
    induction l with
    | nil =>
      intro st h
      exact h
    | cons op l ih =>
      intro st h
      rw [List.foldl_cons]
      exact ih _ (apply_op_ok h op)
  exact main ops _ hinit

theorem nodup_id_ne {es : List TEdge} (hnd : (es.map TEdge.id).Nodup)
    {j idx : ℕ} {e t : TEdge} (hj : es.get? j = some e) (hi : es.get? idx = some t)
    (hne : j ≠ idx) : e.id ≠ t.id := by
  intro heq
  have h1 : (es.map TEdge.id).get? j = some e.id := by
    rw [List.get?_map, hj, Option.map_some']
  have h2 : (es.map TEdge.id).get? idx = some t.id := by
    rw [List.get?_map, hi, Option.map_some']
  have hlt : j < (es.map TEdge.id).length := by
    rcases List.get?_eq_some.mp h1 with ⟨hh, -⟩
    exact hh
  exact hne (List.get?_inj hlt hnd (by rw [h1, h2, heq]))

theorem clamp01_eq_self {s : ℚ} (h0 : 0 ≤ s) (h1 : s ≤ 1) : clamp01 s = s := by
  unfold clamp01
  rw [min_eq_right h1, max_eq_right h0]

/-- Claim C4: creating an incident with severity `s ∈ [0,1]` on an existing
edge without an active incident succeeds and immediately raises the target
edge's weight to `min(1, w + s*0.8)`, raises every adjacent edge (one sharing
an endpoint, at another position) to `min(1, w + s*0.5)`, and leaves
non-adjacent edges untouched. -/
theorem C4_incident_effect :
    ∀ (es : List TEdge) (incs : List TIncident) (now : ℤ) (suf t1 t2 : String)
      (eid : String) (s dur : ℚ) (ity : Option String) (idx : ℕ) (target : TEdge),
      (es.map TEdge.id).Nodup →
      findIdxEdge eid es = some (idx, target) →
      target.isIncident = false →
      0 ≤ s → s ≤ 1 →
      ∃ inc es2 incs2,
        create_incident es incs now suf t1 t2 eid s dur ity =
          Except.ok (inc, es2, incs2) ∧
        inc.severity = s ∧
        (∃ e2, es2.get? idx = some e2 ∧
          e2.weight = min 1 (target.weight + s * (4/5)) ∧
          e2.isIncident = true ∧ e2.incidentSeverity = s) ∧
        (∀ j e, j ≠ idx → es.get? j = some e →
          (adjacentTo target e →
            es2.get? j = some { e with weight := min 1 (e.weight + s * (1/2)) }) ∧
          (¬ adjacentTo target e → es2.get? j = some e)) := by
  intro es incs now suf t1 t2 eid s dur ity idx target hnd hfind hni h0 h1
  have hclamp : clamp01 s = s := clamp01_eq_self h0 h1
  obtain ⟨hidx_get, hid⟩ := findIdxEdge_spec hfind
  have hok : create_incident es incs now suf t1 t2 eid s dur ity =
      Except.ok
        (⟨"incident_" ++ toString now ++ "_" ++ suf, eid, target.src, target.dst,
          clamp01 s, now, now + ⌊max 10000 (min 3600000 dur)⌋,
          ity.getD t1, get_incident_description (ity.getD t2) (clamp01 s)⟩,
         apply_incident_effect
           (mapWithIdx (fun i e =>
             if i = idx then
               { e with isIncident := true, incidentSeverity := clamp01 s }
             else e) es) eid (clamp01 s),
         incs ++
           [⟨"incident_" ++ toString now ++ "_" ++ suf, eid, target.src, target.dst,
             clamp01 s, now, now + ⌊max 10000 (min 3600000 dur)⌋,
             ity.getD t1, get_incident_description (ity.getD t2) (clamp01 s)⟩]) := by
    unfold create_incident
    simp only [hfind]
    rw [if_neg (by simp [hni])]
  have hfpres : ∀ (i : ℕ) (e : TEdge),
      ((fun i e => if i = idx then
          { e with isIncident := true, incidentSeverity := clamp01 s }
        else e) i e).id = e.id := by
    intro i e
    by_cases hi : i = idx
    · simp [hi]
    · simp [hi]
  have hfind2 : findIdxEdge eid
      (mapWithIdx (fun i e =>
        if i = idx then { e with isIncident := true, incidentSeverity := clamp01 s }
        else e) es) =
      some (idx, { target with isIncident := true, incidentSeverity := clamp01 s }) := by
    rw [findIdxEdge_mapWithIdx hfpres, hfind, Option.map_some']
    simp
  refine ⟨_, _, _, hok, by simpa using hclamp, ?_, ?_⟩
  · -- the target edge
    refine ⟨{ target with isIncident := true, incidentSeverity := clamp01 s, weight := min 1 (target.weight + clamp01 s * (4/5)) }, ?_, ?_, ?_, ?_⟩
    · unfold apply_incident_effect
      simp only [hfind2]
      rw [get?_mapWithIdx, get?_mapWithIdx, hidx_get]
      simp
    · simp [hclamp]
    · simp
    · simp [hclamp]
  · -- other edges
    intro j e hj hget
    have hne_id : e.id ≠ target.id :=
      nodup_id_ne hnd hget hidx_get hj
    have hadj_iff : adjacentTo
        { target with isIncident := true, incidentSeverity := clamp01 s } e ↔
        adjacentTo target e := Iff.rfl
    have hadj_eq : ∀ e' : TEdge,
        (e'.id ≠ target.id ∧ adjacentTo
          { target with isIncident := true, incidentSeverity := clamp01 s } e') =
        (e'.id ≠ target.id ∧ adjacentTo target e') := fun e' => rfl
    constructor
    · intro hadj
      unfold apply_incident_effect
      simp only [hfind2]
      rw [get?_mapWithIdx, get?_mapWithIdx, hget]
      simp only [Option.map_some', if_neg hj]
      simp only [hadj_eq]
      rw [if_pos (And.intro hne_id hadj)]
      simp [hclamp]
    · intro hadj
      unfold apply_incident_effect
      simp only [hfind2]
      rw [get?_mapWithIdx, get?_mapWithIdx, hget]
      simp only [Option.map_some', if_neg hj]
      simp only [hadj_eq]
      rw [if_neg (by
        rintro ⟨-, hc⟩
        exact hadj hc)]

theorem clear_edge_flags_sets (es : List TEdge) (eid : String) :
    FlagsCleared (clear_edge_flags es eid) eid := by
  unfold clear_edge_flags
  rcases hf : findIdxEdge eid es with - | p
  · simp only [hf]
    intro idx' e' h'
    rw [hf] at h'
    exact absurd h' (by simp)
  · obtain ⟨idx, t⟩ := p
    simp only [hf]
    intro idx' e' h'
    rw [findIdxEdge_mapWithIdx (fun i e => by by_cases hi : i = idx <;> simp [hi]) eid,
      hf, Option.map_some'] at h'
    obtain ⟨h1, h2⟩ := Prod.mk.injEq .. ▸ Option.some_injective _ h'
    rw [← h2]
    simp

theorem clear_edge_flags_keeps {es : List TEdge} {eid : String}
    (h : FlagsCleared es eid) (other : String) :
    FlagsCleared (clear_edge_flags es other) eid := by
  unfold clear_edge_flags
  rcases hf : findIdxEdge other es with - | p
  · simp only [hf]
    exact h
  · obtain ⟨j, t⟩ := p
    simp only [hf]
    intro idx' e' h'
    rw [findIdxEdge_mapWithIdx (fun i e => by by_cases hi : i = j <;> simp [hi]) eid] at h'
    rcases ho : findIdxEdge eid es with - | p0
    · rw [ho] at h'
      exact absurd h' (by simp)
    · obtain ⟨i0, e0⟩ := p0
      rw [ho, Option.map_some'] at h'
      obtain ⟨h1, h2⟩ := Prod.mk.injEq .. ▸ Option.some_injective _ h'
      rw [← h2]
      by_cases hij : i0 = j
      · simp [hij]
      · simp only [if_neg hij]
        exact h i0 e0 ho

theorem fold_clear_keeps {eid : String} :
    ∀ (L : List TIncident) (es : List TEdge), FlagsCleared es eid →
      FlagsCleared (L.foldl (fun es2 i => clear_edge_flags es2 i.edgeId) es) eid := by
  intro L
  induction L with
  | nil =>
    intro es h
    exact h
  | cons a t ih =>
    intro es h
    rw [List.foldl_cons]
    exact ih _ (clear_edge_flags_keeps h _)

theorem fold_clear_sets {i : TIncident} :
    ∀ (L : List TIncident) (es : List TEdge), i ∈ L →
      FlagsCleared (L.foldl (fun es2 inc => clear_edge_flags es2 inc.edgeId) es)
        i.edgeId := by
  intro L
  induction L with
  | nil =>
    intro es h
    exact absurd h (List.not_mem_nil _)
  | cons a t ih =>
    intro es h
    rw [List.foldl_cons]
    rcases List.mem_cons.mp h with rfl | h
    · exact fold_clear_keeps t _ (clear_edge_flags_sets es _)
    · exact ih _ h

theorem foldl_removeFirst_aux [DecidableEq α] {a : α} :
    ∀ (L l : List α), (∀ x ∈ L, x ≠ a) →
      L.foldl removeFirst (a :: l) = a :: L.foldl removeFirst l := by
  intro L
  induction L with
  | nil =>
    intro l _
    rfl
  | cons x X ih =>
    intro l hL
    rw [List.foldl_cons, List.foldl_cons]
    have hax : ¬ a = x := fun h => hL x (List.mem_cons_self _ _) h.symm
    have hrm : removeFirst (a :: l) x = a :: removeFirst l x := by
      show (if a = x then l else a :: removeFirst l x) = a :: removeFirst l x
      rw [if_neg hax]
    rw [hrm]
    exact ih _ (fun y hy => hL y (List.mem_cons_of_mem _ hy))

theorem foldl_removeFirst_filter [DecidableEq α] (p : α → Bool) :
    ∀ l : List α, (l.filter p).foldl removeFirst l = l.filter (fun a => !(p a)) := by
  intro l
  induction l with
  | nil => rfl
  | cons a t ih =>
    by_cases hp : p a
    · rw [List.filter_cons_of_pos hp, List.foldl_cons]
      have hrm : removeFirst (a :: t) a = t := by
        unfold removeFirst
        rw [if_pos rfl]
      rw [hrm, ih, List.filter_cons_of_neg (by simp [hp])]
    · rw [List.filter_cons_of_neg (by simpa using hp),
        List.filter_cons_of_pos (by simpa using hp)]
      rw [foldl_removeFirst_aux _ _ (fun x hx hxa => by
        have := List.of_mem_filter hx
        rw [hxa] at this
        exact hp (by simpa using this)), ih]

theorem update_incidents_incidents (st : GenState) (now : ℤ) :
    (update_incidents st now).incidents =
      st.incidents.filter (fun i => !(decide (now ≥ i.endTime))) := by
  unfold update_incidents
  exact foldl_removeFirst_filter _ st.incidents

theorem update_edge_at_incidents_mono {cfg : TConfig} {mult : ℚ} {dr : EdgeDraws}
    {es : List TEdge} {incs : List TIncident} {i : ℕ} {x : TIncident}
    (hx : x ∈ incs) : x ∈ (update_edge_at cfg mult dr es incs i).2 := by
  unfold update_edge_at
  rcases hg : es.get? i with - | e
  · simp only [hg]
    exact hx
  · simp only [hg]
    by_cases hcond : ¬ e.isIncident ∧ dr.rIncProb < cfg.incident_probability
    · rw [if_pos hcond]
      rcases hcr : create_incident (es.set i _) incs dr.incNow dr.incSuffix
          dr.incType1 dr.incType2 e.id (dr.rSev * (1/2) + 3/10)
          (30000 + dr.rDur * 60000) none with m | p
      · simp only [hcr]
        exact hx
      · obtain ⟨inc, es3, incs3⟩ := p
        simp only [hcr]
        obtain ⟨-, hi3⟩ := create_incident_shape hcr
        rw [hi3]
        exact List.mem_append_left _ hx
    · rw [if_neg hcond]
      exact hx

theorem tick_fold_incidents_mono {cfg : TConfig} {mult : ℚ} {draws : ℕ → EdgeDraws}
    {x : TIncident} :
    ∀ (idxs : List ℕ) (acc : List TEdge × List TIncident), x ∈ acc.2 →
      x ∈ ((idxs.foldl
        (fun acc i => update_edge_at cfg mult (draws i) acc.1 acc.2 i) acc).2) := by
  intro idxs
  induction idxs with
  | nil =>
    intro acc h
    exact h
  | cons i idxs ih =>
    intro acc h
    rw [List.foldl_cons]
    exact ih _ (update_edge_at_incidents_mono h)

/-- Claim C6: after a tick, no incident whose `endTime` has passed the tick's
wall clock remains, and for each pre-tick incident whose `endTime` elapsed,
the first edge carrying its `edgeId` (when it exists) has its incident flag
and severity reset. -/
theorem C6_expired_incidents :
    ∀ (st : GenState) (hour : ℤ) (draws : ℕ → EdgeDraws) (now2 : ℤ),
      (∀ i ∈ (update_traffic st hour draws now2).incidents, ¬ (i.endTime ≤ now2)) ∧
      (∀ i ∈ st.incidents, i.endTime ≤ now2 →
        ∀ idx e,
          findIdxEdge i.edgeId (update_traffic st hour draws now2).edges =
            some (idx, e) →
          e.isIncident = false ∧ e.incidentSeverity = 0) := by
  intro st hour draws now2
  constructor
  · intro i hi
    unfold update_traffic at hi
    rw [update_incidents_incidents] at hi
    have := List.of_mem_filter hi
    simpa using this
  · intro i hi helapsed idx e hfind
    unfold update_traffic at hfind
    unfold update_incidents at hfind
    have hmid : i ∈ ((List.range st.edges.length).foldl
        (fun acc j =>
          update_edge_at st.config (time_multiplier hour) (draws j) acc.1 acc.2 j)
        (st.edges, st.incidents)).2 :=
      tick_fold_incidents_mono _ _ hi
    have hexp : i ∈ ((List.range st.edges.length).foldl
        (fun acc j =>
          update_edge_at st.config (time_multiplier hour) (draws j) acc.1 acc.2 j)
        (st.edges, st.incidents)).2.filter (fun x => decide (now2 ≥ x.endTime)) :=
      List.mem_filter.mpr ⟨hmid, by simpa using helapsed⟩
    exact fold_clear_sets _ _ hexp idx e hfind

theorem length_mapWithIdx (f : ℕ → α → α) (l : List α) :
    (mapWithIdx f l).length = l.length :=
  length_mapIdxFrom f 0 l

theorem apply_incident_effect_length (es : List TEdge) (eid : String) (s : ℚ) :
    (apply_incident_effect es eid s).length = es.length := by
  unfold apply_incident_effect
  rcases hf : findIdxEdge eid es with - | p
  · simp only [hf]
  · obtain ⟨idx, t⟩ := p
    simp only [hf]
    exact length_mapWithIdx ..

theorem create_incident_length {es : List TEdge} {incs : List TIncident}
    {now : ℤ} {suf t1 t2 eid : String} {sev dur : ℚ} {ity : Option String}
    {inc : TIncident} {es2 : List TEdge} {incs2 : List TIncident}
    (hc : create_incident es incs now suf t1 t2 eid sev dur ity =
      Except.ok (inc, es2, incs2)) : es2.length = es.length := by
  obtain ⟨⟨idx, target, -, -, hes2⟩, -⟩ := create_incident_shape hc
  rw [hes2, apply_incident_effect_length, length_mapWithIdx]

theorem update_edge_at_length {cfg : TConfig} {mult : ℚ} {dr : EdgeDraws}
    {es : List TEdge} {incs : List TIncident} {i : ℕ} :
    (update_edge_at cfg mult dr es incs i).1.length = es.length := by
  unfold update_edge_at
  rcases hg : es.get? i with - | e
  · simp only [hg]
  · simp only [hg]
    by_cases hcond : ¬ e.isIncident ∧ dr.rIncProb < cfg.incident_probability
    · rw [if_pos hcond]
      rcases hcr : create_incident (es.set i _) incs dr.incNow dr.incSuffix
          dr.incType1 dr.incType2 e.id (dr.rSev * (1/2) + 3/10)
          (30000 + dr.rDur * 60000) none with m | p
      · simp only [hcr, List.length_set]
      · obtain ⟨inc, es3, incs3⟩ := p
        simp only [hcr]
        rw [create_incident_length hcr, List.length_set]
    · rw [if_neg hcond]
      exact List.length_set ..

theorem tick_fold_length {cfg : TConfig} {mult : ℚ} {draws : ℕ → EdgeDraws} :
    ∀ (idxs : List ℕ) (acc : List TEdge × List TIncident),
      ((idxs.foldl
        (fun acc i => update_edge_at cfg mult (draws i) acc.1 acc.2 i) acc).1).length
        = acc.1.length := by
  intro idxs
  induction idxs with
  | nil =>
    intro acc
    rfl
  | cons i idxs ih =>
    intro acc
    rw [List.foldl_cons, ih]
    exact update_edge_at_length

theorem update_edge_at_speed_get {cfg : TConfig} {mult : ℚ} {dr : EdgeDraws}
    {es : List TEdge} {incs : List TIncident} {i : ℕ}
    (hno_i : ¬ dr.rIncProb < cfg.incident_probability) (j : ℕ) (e : TEdge)
    (hget : (update_edge_at cfg mult dr es incs i).1.get? j = some e) :
    (j = i → e.speed = calculate_speed e.weight) ∧ (j ≠ i → es.get? j = some e) := by
  unfold update_edge_at at hget
  rcases hg : es.get? i with - | e0
  · simp only [hg] at hget
    constructor
    · intro hji
      rw [hji] at hget
      rw [hget] at hg
      exact absurd hg (by simp)
    · intro _
      exact hget
  · simp only [hg] at hget
    rw [if_neg (show ¬ (¬ e0.isIncident = true ∧
        dr.rIncProb < cfg.incident_probability) from by
      rintro ⟨-, hc⟩
      exact hno_i hc)] at hget
    constructor
    · intro hji
      have hlen : i < es.length := by
        rcases List.get?_eq_some.mp hg with ⟨hh, -⟩
        exact hh
      rw [hji, List.get?_eq_getElem?, List.getElem?_set_self hlen] at hget
      obtain rfl := Option.some_injective _ hget
      rfl
    · intro hji
      rw [List.get?_eq_getElem?, List.getElem?_set_ne (Ne.symm hji),
        ← List.get?_eq_getElem?] at hget
      exact hget

theorem tick_fold_speed {cfg : TConfig} {mult : ℚ} {draws : ℕ → EdgeDraws}
    (hno : ∀ i, ¬ (draws i).rIncProb < cfg.incident_probability)
    (es0 : List TEdge) (incs0 : List TIncident) :
    ∀ (k j : ℕ) (e : TEdge), j < k →
      (((List.range k).foldl
        (fun acc i => update_edge_at cfg mult (draws i) acc.1 acc.2 i)
        (es0, incs0)).1).get? j = some e →
      e.speed = calculate_speed e.weight := by
  intro k
  induction k with
  | zero =>
    intro j e hj
    exact absurd hj (Nat.not_lt_zero _)
  | succ k ih =>
    intro j e hj hget
    rw [List.range_succ, List.foldl_append, List.foldl_cons, List.foldl_nil] at hget
    have hget2 : (update_edge_at cfg mult (draws k)
        (((List.range k).foldl
          (fun acc i => update_edge_at cfg mult (draws i) acc.1 acc.2 i)
          (es0, incs0)).1)
        (((List.range k).foldl
          (fun acc i => update_edge_at cfg mult (draws i) acc.1 acc.2 i)
          (es0, incs0)).2)
        k).1.get? j = some e := hget
    obtain ⟨hcase1, hcase2⟩ := update_edge_at_speed_get (hno k) j e hget2
    rcases Nat.lt_succ_iff_lt_or_eq.mp hj with hj | rfl
    · exact ih j e hj (hcase2 (by omega))
    · exact hcase1 rfl

/-- Claim C5, amended: the relation `speed = round(60 - 55*weight)` holds for
every edge after graph generation and after every tick that creates no
spontaneous incident; incident creation raises weights without recomputing
speed, so it can break the relation until the edge's next tick update
(`C5_counterexample`). -/
theorem C5_amended_speed :
    (∀ (cfg : TConfig) (draws : InitDraws),
      ∀ e ∈ (initialize_graph cfg draws).2, e.speed = calculate_speed e.weight) ∧
    (∀ (st : GenState) (hour : ℤ) (draws : ℕ → EdgeDraws) (now2 : ℤ),
      (∀ i, ¬ (draws i).rIncProb < st.config.incident_probability) →
      ∀ e ∈ (update_traffic st hour draws now2).edges,
        e.speed = calculate_speed e.weight) := by
  constructor
  · intro cfg draws e he
    exact (init_edges_fresh cfg draws e he).2
  · intro st hour draws now2 hno e he
    unfold update_traffic update_incidents at he
    have hmain : ∀ x ∈ (((List.range st.edges.length).foldl
        (fun acc i =>
          update_edge_at st.config (time_multiplier hour) (draws i) acc.1 acc.2 i)
        (st.edges, st.incidents)).1), x.speed = calculate_speed x.weight := by
      intro x hx
      obtain ⟨j, hj⟩ := List.mem_iff_get?.mp hx
      have hjlt : j < st.edges.length := by
        rcases List.get?_eq_some.mp hj with ⟨hh, -⟩
        rw [tick_fold_length] at hh
        exact hh
      exact tick_fold_speed hno st.edges st.incidents st.edges.length j x hjlt hj
    -- clearing incident flags preserves the relation
    have hclear : ∀ (L : List TIncident) (es : List TEdge),
        (∀ x ∈ es, x.speed = calculate_speed x.weight) →
        ∀ x ∈ L.foldl (fun es2 i => clear_edge_flags es2 i.edgeId) es,
          x.speed = calculate_speed x.weight := by
      intro L
      induction L with
      | nil =>
        intro es h
        exact h
      | cons a t ih =>
        intro es h
        rw [List.foldl_cons]
        refine ih _ ?_
        unfold clear_edge_flags
        rcases hf : findIdxEdge a.edgeId es with - | p
        · simp only [hf]
          exact h
        · obtain ⟨idx, tg⟩ := p
          simp only [hf]
          refine mem_mapWithIdx_of_forall ?_ es h
          intro i x hx
          by_cases hi : i = idx
          · simpa [hi] using hx
          · simpa [hi] using hx
    exact hclear _ _ hmain e he

/-- Witness for C3: the generated edge's weight is in the unit interval. -/
theorem C3_weights_bounded_witness : 0 ≤ ex_edge.weight ∧ ex_edge.weight ≤ 1 :=
  C3_weights_bounded ex_cfg ex_drawsA [] ex_edge (by with_unfolding_all decide)

/-- Witness for C4 at the three-edge fixture. -/
theorem C4_incident_effect_witness :
    ∃ inc es2 incs2,
      create_incident c4_edges [] 0 "u" "crash" "crash" "e0" (1/2) 60000 none =
        Except.ok (inc, es2, incs2) ∧ inc.severity = 1/2 := by
  obtain ⟨inc, es2, incs2, h1, h2, -, -⟩ :=
    C4_incident_effect c4_edges [] 0 "u" "crash" "crash" "e0" (1/2) 60000 none 0
      ⟨"e0", "a", "b", 1/5, 49, 0, false, 0, true⟩
      (by with_unfolding_all decide) (by with_unfolding_all decide) rfl
      (by with_unfolding_all decide) (by with_unfolding_all decide)
  exact ⟨inc, es2, incs2, h1, h2⟩

/-- Counterexample to claim C5 as stated: creating an incident right after
graph generation bumps the weight of `edge_0` without recomputing its speed,
so `speed = round(60 - 55*weight)` fails after that operation. -/
theorem C5_counterexample :
    ∃ e ∈ (apply_op (init_state ex_cfg ex_drawsA)
        (Op.createInc 0 "u" "accident" "accident" "edge_0" (1/2) 60000 none)).edges,
      e.speed ≠ calculate_speed e.weight := by
  with_unfolding_all decide

/-- Witness for the amended C5: the post-tick edge satisfies the relation. -/
theorem C5_amended_speed_witness : c5_after.speed = calculate_speed c5_after.weight :=
  C5_amended_speed.2 (init_state ex_cfg ex_drawsA) 12 (fun _ => c5_draws) 0
    (fun i =>
      show ¬ c5_draws.rIncProb < ex_cfg.incident_probability by
        with_unfolding_all decide)
    c5_after (by with_unfolding_all decide)

/-- Witness for C6 at the expired-incident fixture. -/
theorem C6_expired_incidents_witness :
    c6_inc.endTime ≤ 10 ∧ c6_after.isIncident = false ∧ c6_after.incidentSeverity = 0 :=
  ⟨by decide,
   (C6_expired_incidents c6_state 12 (fun _ => c5_draws) 10).2 c6_inc
     (by with_unfolding_all decide)
     (by decide) 0 c6_after (by with_unfolding_all decide)⟩

/-- Claim C9 evaluated at the failing input: with two vertices and every
density draw at 0.9 (≥ road_density + 0.5 = 0.8), the wiring pass creates no
edges, the repair pass finds no connected vertex to attach to, and both
vertices are left without any incident edge — contradicting the claim (and
the source's own `_ensure_connectivity` docstring). -/
theorem C9_code_bug :
    (initialize_graph ex_cfg ex_drawsB).2 = [] ∧
    (initialize_graph ex_cfg ex_drawsB).1 ≠ [] := by
  with_unfolding_all decide

end TrafficApi

namespace TravellerApi

/-- Claim C7: an interrupt recorded before the next Step of a walking
traveller makes that Step recompute the route from the current node, reset
`route_index` to 0 and clear the flag, without advancing `current_node` or
changing the status; and interrupts coalesce (the signal handler is
idempotent, so many interrupts cause one replan). -/
theorem C7_interrupt_replans :
    (∀ (oracle : String → String → List String) (st : WState),
      st.interrupted = true → st.route_index < st.route.length →
      (step oracle st).route = oracle st.current_node st.end_node ∧
      (step oracle st).route_index = 0 ∧
      (step oracle st).current_node = st.current_node ∧
      (step oracle st).status = st.status ∧
      (step oracle st).interrupted = false) ∧
    (∀ st : WState, interrupt (interrupt st) = interrupt st ∧
      (interrupt st).interrupted = true) := by
  constructor
  · intro oracle st hint _
    unfold step
    rw [if_pos hint]
    exact ⟨rfl, rfl, rfl, rfl, rfl⟩
  · intro st
    exact ⟨rfl, rfl⟩

/-- Witness for C7 at a concrete mid-walk interrupted state. -/
theorem C7_interrupt_replans_witness :
    (step (fun a b => [a, b]) ⟨"A", "C", ["B", "C"], 1, "Walking", "w1", true⟩).route =
      ["A", "C"] ∧
    (step (fun a b => [a, b]) ⟨"A", "C", ["B", "C"], 1, "Walking", "w1", true⟩).route_index
      = 0 :=
  have h := (C7_interrupt_replans.1 (fun a b => [a, b])
    ⟨"A", "C", ["B", "C"], 1, "Walking", "w1", true⟩ rfl (by decide))
  ⟨h.1, h.2.1⟩

/-- Counterexample to claim C8 as stated: no traveller ever has status
"Planning"; the workflow is created with status "Walking". -/
theorem C8_counterexample : ¬ (initState.status = "Planning") := by
  decide

/-- Claim C8, amended: the workflow starts (and starts running) in status
"Walking" — there is no "Planning" status in the code — the status only takes
values in the set containing "Walking" and "Finished", interrupt handling and
replanning never change it, and a non-interrupted Step yields "Finished"
exactly when it stays or advances onto the end node. -/
theorem C8_amended_status :
    initState.status = "Walking" ∧
    (∀ (oracle : String → String → List String) (input : TravellerInput),
      (run_start oracle input).status = "Walking") ∧
    (∀ (oracle : String → String → List String) (st : WState),
      st.status = "Walking" ∨ st.status = "Finished" →
      ((step oracle st).status = "Walking" ∨ (step oracle st).status = "Finished")) ∧
    (∀ st : WState, (interrupt st).status = st.status) ∧
    (∀ (oracle : String → String → List String) (st : WState),
      (calculate_route oracle st).status = st.status) ∧
    (∀ (oracle : String → String → List String) (st : WState),
      st.interrupted = false →
      ((step oracle st).status = "Finished" ↔
        (st.status = "Finished" ∨
          st.route.getD st.route_index st.current_node = st.end_node))) := by
  refine ⟨rfl, fun _ _ => rfl, ?_, fun _ => rfl, fun _ _ => rfl, ?_⟩
  · intro oracle st hst
    unfold step
    by_cases hint : st.interrupted
    · rw [if_pos hint]
      exact hst
    · rw [if_neg hint]
      by_cases hend : st.route.getD st.route_index st.current_node = st.end_node
      · rw [if_pos hend]
        exact Or.inr rfl
      · rw [if_neg hend]
        exact hst
  · intro oracle st hint
    unfold step
    rw [if_neg (by rw [hint]; exact Bool.false_ne_true)]
    by_cases hend : st.route.getD st.route_index st.current_node = st.end_node
    · rw [if_pos hend]
      exact ⟨fun _ => Or.inr hend, fun _ => rfl⟩
    · rw [if_neg hend]
      constructor
      · intro h
        exact Or.inl h
      · rintro (h | h)
        · exact h
        · exact absurd h hend

/-- Witness for the amended C8 at a concrete walking state. -/
theorem C8_amended_status_witness :
    (step (fun a b => [a, b]) ⟨"A", "C", ["B"], 0, "Walking", "w1", false⟩).status
        = "Walking" ∨
    (step (fun a b => [a, b]) ⟨"A", "C", ["B"], 0, "Walking", "w1", false⟩).status
        = "Finished" :=
  C8_amended_status.2.2.1 (fun a b => [a, b])
    ⟨"A", "C", ["B"], 0, "Walking", "w1", false⟩ (Or.inl rfl)

end TravellerApi
